import Mathlib

/-!
Verification of the SpectralMorph-VST DSP core against its specification.

The development shallowly embeds the DSP pipeline of
Source/DSP/SpectralProcessor.cpp, Source/DSP/FormantWarper.h and
Source/DSP/EnvelopeExtractor.h.  IEEE-754 single-precision values are
modelled as exact rationals (and, for the transcendental parts of the
pipeline, as real numbers); machine float literals such as 0.001f are read
as the rationals they denote.  std::sort is modelled by a stable sort on
the same key; the C++ comparator induces an unspecified tie order, and no
theorem below depends on the order of ties.
-/

namespace SpectralMorph

/-- STFT frame size, SpectralProcessor.h: fftSize = 1 << fftOrder with fftOrder = 10. -/
def fftSize : ℕ := 1024

/-- Analysis hop, SpectralProcessor.h: hopSize = fftSize / 4. -/
def hopSize : ℕ := 256

/-- Number of tracked formants, SpectralProcessor.h: numFormants = 15. -/
def numFormants : ℕ := 15

/-- juce::jlimit on floats: value < lower ? lower : (upper < value ? upper : value). -/
def jlimit (lo hi v : ℚ) : ℚ := if v < lo then lo else if hi < v then hi else v

/-- juce::jlimit on ints (same definition at type int). -/
def jlimitZ (lo hi v : ℤ) : ℤ := if v < lo then lo else if hi < v then hi else v

/-- The in-place monotonization loop of SpectralProcessor::setTargetFormantsHz:
for each index the floor is 200 for i = 0 and (updated) previous + 20 afterwards,
and the stored value is the max of the floor and the requested value.
The first argument is the floor for the current element. -/
def monoGo (floor : ℚ) : List ℚ → List ℚ
  | [] => []
  | x :: xs =>
    let y := max floor x
    y :: monoGo (y + 20) xs

/-- SpectralProcessor::setTargetFormantsHz: copy the requested vector, then run the
monotonization pass starting with floor 200. -/
def setTargetFormantsHz (v : List ℚ) : List ℚ := monoGo 200 v

/-- The default target formants of SpectralProcessor.h. -/
def defaultTargetFormantsHz : List ℚ :=
  [500, 1500, 2500, 3200, 3800, 4400, 5000, 5600, 6200, 6800, 7400, 8000, 8600, 9200, 9800]

/-- A control node of FormantWarper.h mapping a source bin to a destination bin. -/
structure WarpingPoint where
  srcBin : ℚ
  dstBin : ℚ
deriving DecidableEq, Inhabited, Repr

/-- The while-loop of FormantWarper::calculateWarpMap that advances currentSegment
while (currentSegment < points.size() - 1 and outBin > points[currentSegment+1].dstBin).
The loop body runs at most points.length times, so fuel = points.length (supplied at
every call site) never runs out. -/
def advanceSeg (pts : List WarpingPoint) (outBin : ℚ) : ℕ → ℕ → ℕ
  | 0, seg => seg
  | fuel + 1, seg =>
    if seg + 1 < pts.length ∧ (pts.getD (seg + 1) default).dstBin < outBin then
      advanceSeg pts outBin fuel (seg + 1)
    else seg

/-- The per-output-bin body of FormantWarper::calculateWarpMap: either the clamp-free
fallback to points.back().srcBin (when currentSegment >= points.size() - 1), or linear
interpolation inside the segment, clamped to [0, numBins - 1]. -/
def warpEntry (pts : List WarpingPoint) (numBins : ℕ) (outBin : ℚ) (seg : ℕ) : ℚ :=
  if pts.length - 1 ≤ seg then (pts.getLast?.getD default).srcBin
  else
    let p0 := pts.getD seg default
    let p1 := pts.getD (seg + 1) default
    let range := p1.dstBin - p0.dstBin
    let frac := if 1/10000 < range then (outBin - p0.dstBin) / range else 0
    let srcVal := p0.srcBin + frac * (p1.srcBin - p0.srcBin)
    max 0 (min srcVal ((numBins : ℚ) - 1))

/-- The generation loop of FormantWarper::calculateWarpMap over output bins
i, i+1, ... (r entries remain); currentSegment persists across iterations. -/
def warpMapGo (pts : List WarpingPoint) (numBins : ℕ) : ℕ → ℕ → ℕ → List ℚ
  | _, _, 0 => []
  | i, seg, r + 1 =>
    let seg2 := advanceSeg pts (i : ℚ) pts.length seg
    warpEntry pts numBins (i : ℚ) seg2 :: warpMapGo pts numBins (i + 1) seg2 r

/-- The anchor insertions of FormantWarper::calculateWarpMap: prepend {0,0} when the
list is empty or its front dstBin exceeds 0.001, then append
{numBins-1, numBins-1} when the (original) back dstBin is below numBins - 1. -/
def warpAnchor (numBins : ℕ) (points : List WarpingPoint) : List WarpingPoint :=
  let pts1 :=
    if points = [] ∨ 1/1000 < points.headI.dstBin then
      (⟨0, 0⟩ : WarpingPoint) :: points
    else points
  if (pts1.getLast?.getD default).dstBin < (numBins : ℚ) - 1 then
    pts1 ++ [⟨(numBins : ℚ) - 1, (numBins : ℚ) - 1⟩]
  else pts1

/-- FormantWarper::calculateWarpMap: anchor, sort by dstBin (std::sort with an
unspecified tie order, modelled by a stable sort), then generate the map. -/
def calculateWarpMap (numBins : ℕ) (points : List WarpingPoint) : List ℚ :=
  let pts := List.insertionSort (fun a b => a.dstBin ≤ b.dstBin) (warpAnchor numBins points)
  warpMapGo pts numBins 0 0 numBins

instance : IsTotal WarpingPoint (fun a b => a.dstBin ≤ b.dstBin) :=
  ⟨fun a b => le_total a.dstBin b.dstBin⟩

instance : IsTrans WarpingPoint (fun a b => a.dstBin ≤ b.dstBin) :=
  ⟨fun _ _ _ h1 h2 => le_trans h1 h2⟩

/-- The warp-node construction loop of SpectralProcessor::processBlock: for each
formant i the node is (currentFormantBins[i],
jlimit(lastDst + 1, numBins - 2, targetFormantsHz[i] / max(1, hzPerBin))). -/
def buildNodesGo (bins targets : List ℚ) (hzPerBin : ℚ) (numBins : ℕ) :
    ℕ → ℕ → ℚ → List WarpingPoint
  | _, 0, _ => []
  | i, r + 1, lastDst =>
    let src := bins.getD i 0
    let targetBin := targets.getD i 0 / max 1 hzPerBin
    let dst := jlimit (lastDst + 1) ((numBins : ℚ) - 2) targetBin
    (⟨src, dst⟩ : WarpingPoint) :: buildNodesGo bins targets hzPerBin numBins (i + 1) r dst

/-- The full node list built by SpectralProcessor::processBlock before it calls
calculateWarpMap: {0,0}, then one node per formant, then {numBins-1, numBins-1}
(numBins = fftSize/2 + 1 = 513, so the final anchor is {512, 512} = {N/2, N/2}). -/
def buildWarpNodes (sampleRate : ℚ) (bins targets : List ℚ) : List WarpingPoint :=
  let numBins := fftSize / 2 + 1
  let hzPerBin := sampleRate / (fftSize : ℚ)
  (⟨0, 0⟩ : WarpingPoint) ::
    (buildNodesGo bins targets hzPerBin numBins 0 numFormants 0 ++
      [⟨(numBins : ℚ) - 1, (numBins : ℚ) - 1⟩])

/-- C-style (int) cast of a float value: truncation toward zero. -/
def cTruncInt (q : ℚ) : ℤ := q.num.tdiv q.den

/-- SpectralProcessor::detectFormants: minBin = max(1, (int)(150 / hzPerBin)). -/
def detectMinBin (hzPerBin : ℚ) : ℤ := max 1 (cTruncInt (150 / hzPerBin))

/-- SpectralProcessor::detectFormants:
maxBin = min((int)envelope.size() - 2, (int)(9000 / hzPerBin)). -/
def detectMaxBin (envLen : ℕ) (hzPerBin : ℚ) : ℤ :=
  min ((envLen : ℤ) - 2) (cTruncInt (9000 / hzPerBin))

/-- SpectralProcessor::detectFormants: minDistanceBins = max(2, (int)(120 / hzPerBin)). -/
def detectMinDist (hzPerBin : ℚ) : ℤ := max 2 (cTruncInt (120 / hzPerBin))

/-- The candidate scan of SpectralProcessor::detectFormants: bins i in
[minBin, maxBin] with envelope[i] > envelope[i-1] and envelope[i] >= envelope[i+1],
collected in ascending order of i together with their magnitudes.  The source
indexes the raw arrays; the call sites below always have 1 <= minBin and
maxBin <= envelope.size() - 2, so every access is in bounds. -/
def peakCandidates (env : List ℚ) (minBin maxBin : ℤ) : List (ℤ × ℚ) :=
  (List.range env.length).filterMap fun (i : ℕ) =>
    if minBin ≤ (i : ℤ) ∧ (i : ℤ) ≤ maxBin ∧
        env.getD (i - 1) 0 < env.getD i 0 ∧ env.getD (i + 1) 0 ≤ env.getD i 0 then
      some ((i : ℤ), env.getD i 0)
    else none

/-- The greedy selection loop of SpectralProcessor::detectFormants: walk the
magnitude-sorted candidates, keep a peak unless it is within minDistanceBins of an
already chosen one, and stop once numFormants peaks are chosen. -/
def greedySelect (minDist : ℤ) : List (ℤ × ℚ) → List ℤ → List ℤ
  | [], sel => sel
  | c :: rest, sel =>
    if numFormants ≤ sel.length then sel
    else if ∃ chosen ∈ sel, |chosen - c.1| < minDist then greedySelect minDist rest sel
    else greedySelect minDist rest (sel ++ [c.1])

/-- The output loop of SpectralProcessor::detectFormants: for i < selected.size()
take max(lastBin + (i == 0 ? 0 : minDistanceBins / 2), selected[i]); afterwards pad
with min(maxBin, lastBin + minDistanceBins); each output is
jlimit(minBin, maxBin, lastBin).  Integer division on the positive
minDistanceBins agrees with C integer division. -/
def formantFill (minBin maxBin minDist : ℤ) (sel : List ℤ) : ℕ → ℕ → ℤ → List ℤ
  | _, 0, _ => []
  | i, r + 1, lastBin =>
    let lastBin2 :=
      if h : i < sel.length then
        max (lastBin + if i = 0 then 0 else minDist / 2) (sel.get ⟨i, h⟩)
      else min maxBin (lastBin + minDist)
    jlimitZ minBin maxBin lastBin2 :: formantFill minBin maxBin minDist sel (i + 1) r lastBin2

/-- SpectralProcessor::detectFormants, returning the numFormants output bins.
std::sort on candidates (descending magnitude) and on the chosen bins (ascending)
is modelled by a stable sort on the same keys. -/
def detectFormants (env : List ℚ) (sampleRate : ℚ) : List ℤ :=
  let hzPerBin := sampleRate / (fftSize : ℚ)
  let minBin := detectMinBin hzPerBin
  let maxBin := detectMaxBin env.length hzPerBin
  let minDist := detectMinDist hzPerBin
  let candidates := peakCandidates env minBin maxBin
  let sorted := List.insertionSort (fun a b => b.2 ≤ a.2) candidates
  let selected := greedySelect minDist sorted []
  let sel := List.insertionSort (fun a b : ℤ => a ≤ b) selected
  formantFill minBin maxBin minDist sel 0 numFormants (max minBin 1)

/-- The streaming state of SpectralProcessor::process: circular input FIFO,
circular overlap-add accumulator, hop counter and the two ring positions. -/
structure STFTState where
  inputFifo : List ℚ
  outputAccumulator : List ℚ
  hopCounter : ℕ
  inputWritePos : ℕ
  outputReadPos : ℕ
deriving DecidableEq, Repr

/-- The state as built by the SpectralProcessor constructor, before prepare was
ever called: both rings zero-filled, counters zero. -/
def initialState : STFTState :=
  ⟨List.replicate fftSize 0, List.replicate fftSize 0, 0, 0, 0⟩

/-- The overlap-add loop of SpectralProcessor::process: add frame[k] into the
accumulator at (outputReadPos + k) mod fftSize. -/
def overlapAdd (acc : List ℚ) (rp : ℕ) (frame : List ℚ) : List ℚ :=
  (List.range fftSize).foldl
    (fun a k => a.set ((rp + k) % fftSize) (a.getD ((rp + k) % fftSize) 0 + frame.getD k 0))
    acc

/-- One iteration of the per-sample loop of SpectralProcessor::process.  The
frequency-domain frame processing (processBlock: window, FFT, envelope, warp,
inverse FFT — transcendental and irrelevant before the first hop) is abstracted
as the parameter F. -/
def processOneSample (F : List ℚ → List ℚ) (st : STFTState) (x : ℚ) : ℚ × STFTState :=
  let fifo := st.inputFifo.set st.inputWritePos x
  let wp := (st.inputWritePos + 1) % fftSize
  let out := st.outputAccumulator.getD st.outputReadPos 0
  let acc := st.outputAccumulator.set st.outputReadPos 0
  let rp := (st.outputReadPos + 1) % fftSize
  let hc := st.hopCounter + 1
  if hopSize ≤ hc then
    let frame := (List.range fftSize).map fun k => fifo.getD ((wp + k) % fftSize) 0
    let acc2 := overlapAdd acc rp (F frame)
    (out, ⟨fifo, acc2, 0, wp, rp⟩)
  else
    (out, ⟨fifo, acc, hc, wp, rp⟩)

/-- SpectralProcessor::process on channel 0: one output sample per input sample. -/
def processSamples (F : List ℚ → List ℚ) (st : STFTState) : List ℚ → List ℚ × STFTState
  | [] => ([], st)
  | x :: xs =>
    let r1 := processOneSample F st x
    let r2 := processSamples F r1.2 xs
    (r1.1 :: r2.1, r2.2)

/-- A juce::AudioBuffer as far as SpectralProcessor::estimateFormantsFromBuffer
reads it: a channel count and the channel-0 samples. -/
structure AudioBuffer where
  numChannels : ℕ
  channelData : List ℚ

/-- SpectralProcessor::estimateFormantsFromBuffer.  Result: (returned vector,
stored targetFormantsHz after the call).  estimatedHz starts as a copy of the
stored targets and is returned unchanged when the buffer has no samples or no
channels.  The analysis of a non-empty buffer (window, FFT, envelope, peak
detection — transcendental) is abstracted as the parameter analyzeNonEmpty; the
method never assigns targetFormantsHz on either path, which the second result
component records. -/
def estimateFormantsFromBuffer
    (analyzeNonEmpty : AudioBuffer → ℚ → List ℚ → List ℚ)
    (targetFormants : List ℚ) (buf : AudioBuffer) (sourceSampleRate : ℚ) :
    List ℚ × List ℚ :=
  let estimatedHz := targetFormants
  if buf.channelData.length = 0 ∨ buf.numChannels = 0 then
    (estimatedHz, targetFormants)
  else
    (analyzeNonEmpty buf sourceSampleRate targetFormants, targetFormants)

/-- juce::jlimit at type float, modelled over the reals (used where the
surrounding arithmetic is transcendental). -/
noncomputable def jlimitR (lo hi v : ℝ) : ℝ :=
  if v < lo then lo else if hi < v then hi else v

/-- SpectralProcessor.h: maxEnvelopeGainDb = 24. -/
def maxEnvelopeGainDb : ℝ := 24

/-- SpectralProcessor::processBlock: maxGainLinear = pow(10, maxEnvelopeGainDb/20). -/
noncomputable def maxGainLinear : ℝ := (10 : ℝ) ^ (maxEnvelopeGainDb / 20)

/-- The per-bin factor of the envelope-substitution loop in
SpectralProcessor::processBlock:
jlimit(0, maxGainLinear, max(warpedEnvelope[i], 1e-9) / max(extractedEnvelope[i], 1e-7)). -/
noncomputable def envelopeScale (warped orig : ℝ) : ℝ :=
  jlimitR 0 maxGainLinear (max warped (1e-9) / max orig (1e-7))

/-- The factor formula exactly as claim C6 and spec step 9 state it:
clamp(E_warp[k] / max(E_orig[k], 1e-7), 0, G_max) — no floor on the numerator.
Second definition kept for comparison with envelopeScale (refinement check). -/
noncomputable def envelopeScaleClaim (warped orig : ℝ) : ℝ :=
  jlimitR 0 maxGainLinear (warped / max orig (1e-7))

/-- The envelope-substitution loop itself: both halves of complex bin k = j / 2
(interleaved layout: re at 2k, im at 2k+1) are multiplied by the factor, for
k = 0 .. fftSize/2. -/
noncomputable def substituteEnvelope (warped orig : ℕ → ℝ) (buf : ℕ → ℝ) : ℕ → ℝ :=
  fun j =>
    if j / 2 < fftSize / 2 + 1 then buf j * envelopeScale (warped (j / 2)) (orig (j / 2))
    else buf j

/-- Forward DFT as juce::dsp::FFT::performRealOnlyForwardTransform computes bin k
(real input, no scaling). -/
noncomputable def dftForward (N : ℕ) (x : ℕ → ℂ) (k : ℕ) : ℂ :=
  ∑ n ∈ Finset.range N, x n * Complex.exp (-(2 * Real.pi * Complex.I * k * n / N))

/-- Inverse DFT as juce::dsp::FFT::performRealOnlyInverseTransform computes sample
n: JUCE's inverse divides by the transform size, and the real-only variant reads
bins above N/2 by conjugate symmetry from the stored half spectrum. -/
noncomputable def dftInverse (N : ℕ) (X : ℕ → ℂ) (n : ℕ) : ℂ :=
  (N : ℂ)⁻¹ * ∑ k ∈ Finset.range N, X k * Complex.exp (2 * Real.pi * Complex.I * k * n / N)

/-- EnvelopeExtractor::process default lifter cutoff (cutoffBin = 20). -/
def cutoffBin : ℕ := 20

/-- EnvelopeExtractor::process: log magnitudes (floored at 1e-9) into the real
parts of the half spectrum, inverse real FFT to the cepstrum, zero quefrencies in
[cutoffBin, fftSize - cutoffBin), forward real FFT, exponentiate the real part of
each bin.  No 1/N normalization and no clamping of the log envelope appear in the
source; the inverse transform's own 1/N (JUCE convention) is part of dftInverse. -/
noncomputable def envelopeExtract (mags : ℕ → ℝ) : ℕ → ℝ :=
  let logMag : ℕ → ℝ := fun i => Real.log (max (mags i) (1e-9))
  let X : ℕ → ℂ := fun k =>
    ((if k ≤ fftSize / 2 then logMag k else logMag (fftSize - k) : ℝ) : ℂ)
  let cep : ℕ → ℝ := fun n => (dftInverse fftSize X n).re
  let lift : ℕ → ℝ := fun n => if n < cutoffBin ∨ fftSize - cutoffBin ≤ n then cep n else 0
  let Y : ℕ → ℂ := fun k => dftForward fftSize (fun n => (lift n : ℂ)) k
  fun i => Real.exp (Y i).re

/-! ### Target monotonization (claims C1 and C10) -/

theorem monoGo_cons (floor x : ℚ) (xs : List ℚ) :
    monoGo floor (x :: xs) = max floor x :: monoGo (max floor x + 20) xs := rfl

theorem monoGo_length (floor : ℚ) (v : List ℚ) : (monoGo floor v).length = v.length := by
  induction v generalizing floor with
  | nil => rfl
  | cons x xs ih => simp [monoGo_cons, ih]

theorem monoGo_head_ge (floor : ℚ) (v : List ℚ) :
    ∀ y ∈ (monoGo floor v).head?, floor ≤ y := by
  cases v with
  | nil => simp [monoGo]
  | cons x xs =>
    intro y hy
    simp only [monoGo_cons, List.head?_cons, Option.mem_def, Option.some.injEq] at hy
    exact hy ▸ le_max_left _ _

theorem monoGo_chain (floor : ℚ) (v : List ℚ) :
    List.Chain' (fun a b => a + 20 ≤ b) (monoGo floor v) := by
  induction v generalizing floor with
  | nil => simp [monoGo]
  | cons x xs ih =>
    rw [monoGo_cons]
    refine List.chain'_cons'.mpr ⟨?_, ih _⟩
    intro y hy
    exact monoGo_head_ge (max floor x + 20) xs y hy

theorem monoGo_fix (v : List ℚ) (floor : ℚ)
    (h1 : ∀ y ∈ v.head?, floor ≤ y)
    (h2 : List.Chain' (fun a b => a + 20 ≤ b) v) :
    monoGo floor v = v := by
  induction v generalizing floor with
  | nil => rfl
  | cons x xs ih =>
    have hx : floor ≤ x := h1 x rfl
    rw [monoGo_cons, max_eq_right hx]
    obtain ⟨hhead, htail⟩ := List.chain'_cons'.mp h2
    exact congrArg (x :: ·) (ih (x + 20) hhead htail)

theorem monoGo_floored (v : List ℚ) (floor : ℚ)
    (h : ∀ i : ℕ, i < v.length → v.getD i 0 ≤ floor + 20 * i) :
    monoGo floor v = (List.range v.length).map fun (i : ℕ) => floor + 20 * (i : ℚ) := by
  induction v generalizing floor with
  | nil => rfl
  | cons x xs ih =>
    have hx : x ≤ floor := by simpa using h 0 (by simp)
    have hrec := ih (floor + 20) (fun i hi => by
      have := h (i + 1) (by simpa using hi)
      simp only [List.getD_cons_succ] at this
      push_cast at this ⊢
      linarith)
    rw [monoGo_cons, max_eq_left hx, List.length_cons, List.range_succ_eq_map,
      List.map_cons, List.map_map, hrec]
    refine congrArg₂ (· :: ·) (by simp) (List.map_congr_left fun i _ => ?_)
    simp only [Function.comp_apply]
    push_cast
    ring

/-- Claim C1: after setTargetFormantsHz(v) on a 15-element vector the stored
vector t has 15 elements, t[0] >= 200 and t[i] >= t[i-1] + 20 for i in 1..14;
and when every requested entry lies at or below its floor 200 + 20 i the stored
vector is exactly [200, 220, 240, ...]. -/
theorem setTargetFormantsHz_monotone (v : List ℚ) (hv : v.length = 15) :
    (setTargetFormantsHz v).length = 15 ∧
    200 ≤ (setTargetFormantsHz v).headI ∧
    List.Chain' (fun a b => a + 20 ≤ b) (setTargetFormantsHz v) ∧
    ((∀ i : ℕ, i < 15 → v.getD i 0 ≤ 200 + 20 * i) →
      setTargetFormantsHz v = (List.range 15).map fun (i : ℕ) => 200 + 20 * (i : ℚ)) := by
  refine ⟨by rw [setTargetFormantsHz, monoGo_length, hv], ?_, monoGo_chain 200 v, ?_⟩
  · have hne : v ≠ [] := by
      intro h
      rw [h] at hv
      exact absurd hv (by decide)
    obtain ⟨x, xs, rfl⟩ := List.exists_cons_of_ne_nil hne
    rw [setTargetFormantsHz, monoGo_cons]
    exact le_max_left (200 : ℚ) x
  · intro hfl
    rw [setTargetFormantsHz, monoGo_floored v 200 (fun i hi => hfl i (hv ▸ hi)), hv]

/-- Witness for C1 at the concrete input of scenario S6. -/
theorem setTargetFormantsHz_monotone_witness :
    ([100, 90, 80, 70, 60, 50, 40, 30, 20, 10, 0, -10, -20, -30, -40] : List ℚ).length = 15 ∧
    setTargetFormantsHz [100, 90, 80, 70, 60, 50, 40, 30, 20, 10, 0, -10, -20, -30, -40] =
      (List.range 15).map fun (i : ℕ) => 200 + 20 * (i : ℚ) := by
  have hlen : ([100, 90, 80, 70, 60, 50, 40, 30, 20, 10, 0, -10, -20, -30, -40] : List ℚ).length
      = 15 := by decide
  refine ⟨hlen, (setTargetFormantsHz_monotone _ hlen).2.2.2 ?_⟩
  intro i hi
  interval_cases i <;>
    simp only [List.getD_cons_succ, List.getD_cons_zero] <;> norm_num

/-- Claim C10: the monotonization is idempotent, and a vector already satisfying
the floors (first element at least 200, each later element at least the previous
plus 20) is stored verbatim. -/
theorem setTargetFormantsHz_idempotent :
    (∀ v : List ℚ, setTargetFormantsHz (setTargetFormantsHz v) = setTargetFormantsHz v) ∧
    (∀ w : List ℚ, (∀ y ∈ w.head?, 200 ≤ y) →
      List.Chain' (fun a b => a + 20 ≤ b) w → setTargetFormantsHz w = w) := by
  constructor
  · intro v
    exact monoGo_fix _ 200 (monoGo_head_ge 200 v) (monoGo_chain 200 v)
  · intro w h1 h2
    exact monoGo_fix w 200 h1 h2

/-- Witness for C10 at a concrete already-monotone vector. -/
theorem setTargetFormantsHz_idempotent_witness :
    (∀ y ∈ ([300, 330, 360] : List ℚ).head?, 200 ≤ y) ∧
    List.Chain' (fun a b : ℚ => a + 20 ≤ b) [300, 330, 360] ∧
    setTargetFormantsHz [300, 330, 360] = [300, 330, 360] := by
  have h1 : ∀ y ∈ ([300, 330, 360] : List ℚ).head?, 200 ≤ y := by
    intro y hy
    simp only [List.head?_cons, Option.mem_def, Option.some.injEq] at hy
    rw [← hy]
    norm_num
  have h2 : List.Chain' (fun a b : ℚ => a + 20 ≤ b) [300, 330, 360] := by
    refine List.chain'_cons.mpr ⟨by norm_num, List.chain'_cons.mpr ⟨by norm_num, ?_⟩⟩
    exact List.chain'_singleton _
  exact ⟨h1, h2, setTargetFormantsHz_idempotent.2 _ h1 h2⟩

/-! ### Offline estimator on an empty buffer (claim C8) -/

/-- Claim C8: for a reference buffer with no samples or no channels,
estimateFormantsFromBuffer returns the currently stored target formants and
leaves the stored targets unchanged, for every sample rate. -/
theorem estimateFormants_emptyBuffer
    (analyzeNonEmpty : AudioBuffer → ℚ → List ℚ → List ℚ)
    (targets : List ℚ) (buf : AudioBuffer) (sr : ℚ)
    (h : buf.channelData.length = 0 ∨ buf.numChannels = 0) :
    estimateFormantsFromBuffer analyzeNonEmpty targets buf sr = (targets, targets) := by
  unfold estimateFormantsFromBuffer
  exact if_pos h

/-- Witness for C8 on a concrete empty two-channel buffer. -/
theorem estimateFormants_emptyBuffer_witness :
    ((⟨2, []⟩ : AudioBuffer).channelData.length = 0 ∨ (⟨2, []⟩ : AudioBuffer).numChannels = 0) ∧
    estimateFormantsFromBuffer (fun _ _ t => t) defaultTargetFormantsHz ⟨2, []⟩ 44100 =
      (defaultTargetFormantsHz, defaultTargetFormantsHz) :=
  ⟨Or.inl rfl, estimateFormants_emptyBuffer _ _ _ _ (Or.inl rfl)⟩

/-! ### Warper scenario S2 (claim C9) -/

set_option maxRecDepth 40000 in
unseal Rat.add Rat.mul Rat.inv Rat.sub in
/-- Claim C9: with numBins = 100 and nodes {0,0},{50,70},{99,99}, the warp map
satisfies WarpMap[70] = 50 within 0.1 and WarpMap[35] = 25 within 0.1 (both are
in fact exact). -/
theorem calculateWarpMap_scenarioS2 :
    |(calculateWarpMap 100 [⟨0, 0⟩, ⟨50, 70⟩, ⟨99, 99⟩]).getD 70 0 - 50| ≤ 1/10 ∧
    |(calculateWarpMap 100 [⟨0, 0⟩, ⟨50, 70⟩, ⟨99, 99⟩]).getD 35 0 - 25| ≤ 1/10 := by
  decide

/-! ### Warp-node construction in processBlock (claim C2) -/

theorem jlimit_eq_self {lo hi v : ℚ} (h1 : lo ≤ v) (h2 : v ≤ hi) : jlimit lo hi v = v := by
  unfold jlimit
  rw [if_neg (not_lt.mpr h1), if_neg (not_lt.mpr h2)]

set_option maxRecDepth 40000 in
unseal Rat.add Rat.mul Rat.inv Rat.sub in
/-- Counterexample to C2: at sample rate 1024 with the stored targets produced by
setTargetFormantsHz([1000, 1000, ...]) (a reachable state) and any detected bins,
the second and third warp nodes share dstBin = 511 = N/2 - 1, so the dst
coordinates are not strictly increasing and the second step leaves the claimed
window [last_dst + 1, N/2 - 1].  (Once a destination saturates at N/2 - 1, the
clamp interval [lastDst + 1, 511] is empty and jlimit returns 511 again.) -/
theorem buildWarpNodes_counterexample :
    ((buildWarpNodes 1024 (List.replicate 15 100)
        (setTargetFormantsHz (List.replicate 15 1000))).getD 1 default).dstBin = 511 ∧
    ((buildWarpNodes 1024 (List.replicate 15 100)
        (setTargetFormantsHz (List.replicate 15 1000))).getD 2 default).dstBin = 511 := by
  decide

theorem buildNodesGo_eq_of_fits (bins targets : List ℚ) (hz : ℚ) :
    ∀ (r i : ℕ) (lastDst : ℚ),
      lastDst + 1 ≤ targets.getD i 0 / max 1 hz →
      (∀ j : ℕ, i ≤ j → j + 1 < i + r →
        targets.getD j 0 / max 1 hz + 1 ≤ targets.getD (j + 1) 0 / max 1 hz) →
      (∀ j : ℕ, i ≤ j → j < i + r → targets.getD j 0 / max 1 hz ≤ 511) →
      buildNodesGo bins targets hz 513 i r lastDst =
        (List.range r).map fun (k : ℕ) =>
          (⟨bins.getD (i + k) 0, targets.getD (i + k) 0 / max 1 hz⟩ : WarpingPoint) := by
  intro r
  induction r with
  | zero => intro i lastDst _ _ _; rfl
  | succ r ih =>
    intro i lastDst h1 h2 h3
    have hle : targets.getD i 0 / max 1 hz ≤ 511 := h3 i le_rfl (by omega)
    have hdst : jlimit (lastDst + 1) (((513 : ℕ) : ℚ) - 2) (targets.getD i 0 / max 1 hz) =
        targets.getD i 0 / max 1 hz := by
      rw [show (((513 : ℕ) : ℚ) - 2) = 511 by norm_num]
      exact jlimit_eq_self h1 hle
    simp only [buildNodesGo]
    rw [hdst, List.range_succ_eq_map, List.map_cons, List.map_map]
    refine congrArg₂ (· :: ·) (by rw [Nat.add_zero]) ?_
    have hnext : (targets.getD i 0 / max 1 hz) + 1 ≤ targets.getD (i + 1) 0 / max 1 hz ∨ r = 0 := by
      rcases Nat.eq_zero_or_pos r with h | h
      · exact Or.inr h
      · exact Or.inl (h2 i le_rfl (by omega))
    rcases hnext with hnext | rfl
    · rw [ih (i + 1) (targets.getD i 0 / max 1 hz) hnext
        (fun j hj hj2 => h2 j (by omega) (by omega))
        (fun j hj hj2 => h3 j (by omega) (by omega))]
      exact List.map_congr_left fun k _ => by
        simp only [Function.comp_apply]
        rw [show i + (k + 1) = i + 1 + k by omega]
    · rfl

/-- Amended C2: the node list always starts with {0,0} and ends with
{N/2, N/2} = {512, 512}; and whenever the target bins
q i = targetFormantsHz[i] / max(1, hzPerBin) satisfy 1 <= q 0,
q i + 1 <= q (i+1) and q 14 <= N/2 - 1 = 511 (so no clamp saturates), the dst
coordinates are strictly increasing with every intermediate dst in
[previous dst + 1, N/2 - 1].  The counterexample above shows the unconditional
statement of C2 is false once a target bin saturates at N/2 - 1. -/
theorem buildWarpNodes_strictNodes (sampleRate : ℚ) (bins targets : List ℚ)
    (h1 : 1 ≤ targets.getD 0 0 / max 1 (sampleRate / (fftSize : ℚ)))
    (h2 : ∀ j : ℕ, j < 14 →
      targets.getD j 0 / max 1 (sampleRate / (fftSize : ℚ)) + 1 ≤
        targets.getD (j + 1) 0 / max 1 (sampleRate / (fftSize : ℚ)))
    (h3 : targets.getD 14 0 / max 1 (sampleRate / (fftSize : ℚ)) ≤ 511) :
    (buildWarpNodes sampleRate bins targets).length = 17 ∧
    (buildWarpNodes sampleRate bins targets).headI = (⟨0, 0⟩ : WarpingPoint) ∧
    ((buildWarpNodes sampleRate bins targets).getD 16 default) =
      (⟨512, 512⟩ : WarpingPoint) ∧
    (∀ i : ℕ, i + 1 < 17 →
      ((buildWarpNodes sampleRate bins targets).getD i default).dstBin <
        ((buildWarpNodes sampleRate bins targets).getD (i + 1) default).dstBin) ∧
    (∀ i : ℕ, i < 15 →
      ((buildWarpNodes sampleRate bins targets).getD i default).dstBin + 1 ≤
        ((buildWarpNodes sampleRate bins targets).getD (i + 1) default).dstBin ∧
      ((buildWarpNodes sampleRate bins targets).getD (i + 1) default).dstBin ≤ 511) := by
  set hz := sampleRate / (fftSize : ℚ) with hhz
  set q : ℕ → ℚ := fun j => targets.getD j 0 / max 1 hz with hq
  have hqmono : ∀ j k : ℕ, j ≤ k → k < 15 → q j ≤ q k := by
    intro j k hjk hk
    induction k with
    | zero => simp_all
    | succ k ihk =>
      rcases Nat.lt_or_ge j (k + 1) with h | h
      · have := h2 k (by omega)
        have := ihk (by omega) (by omega)
        simp only [hq] at *
        linarith
      · have : j = k + 1 := by omega
        subst this
        exact le_rfl
  have hqle : ∀ j : ℕ, j < 15 → q j ≤ 511 := fun j hj =>
    le_trans (hqmono j 14 (by omega) (by omega)) h3
  have hgo : buildNodesGo bins targets hz 513 0 15 0 =
      (List.range 15).map fun (k : ℕ) =>
        (⟨bins.getD k 0, q k⟩ : WarpingPoint) := by
    have h := buildNodesGo_eq_of_fits bins targets hz 15 0 0
      (by rw [zero_add]; exact h1) (fun j hj hj2 => h2 j (by omega))
      (fun j hj hj2 => hqle j (by omega))
    simp only [Nat.zero_add] at h
    simp only [hq]
    exact h
  have hL : buildWarpNodes sampleRate bins targets =
      (⟨0, 0⟩ : WarpingPoint) ::
        (((List.range 15).map fun (k : ℕ) => (⟨bins.getD k 0, q k⟩ : WarpingPoint)) ++
          [⟨512, 512⟩]) := by
    show (⟨0, 0⟩ : WarpingPoint) :: (buildNodesGo bins targets hz (fftSize / 2 + 1) 0
        numFormants 0 ++ [⟨((fftSize / 2 + 1 : ℕ) : ℚ) - 1, ((fftSize / 2 + 1 : ℕ) : ℚ) - 1⟩]) = _
    rw [show fftSize / 2 + 1 = 513 from rfl, show numFormants = 15 from rfl, hgo,
      show ((513 : ℕ) : ℚ) - 1 = 512 by norm_num]
  have hget : ∀ i : ℕ, i < 15 →
      (buildWarpNodes sampleRate bins targets).getD (i + 1) default =
        (⟨bins.getD i 0, q i⟩ : WarpingPoint) := by
    intro i hi
    rw [hL, List.getD_cons_succ, List.getD_eq_getElem?_getD,
      List.getElem?_append_left (by simpa using hi), List.getElem?_map,
      List.getElem?_range hi]
    rfl
  have hget0 : (buildWarpNodes sampleRate bins targets).getD 0 default =
      (⟨0, 0⟩ : WarpingPoint) := by rw [hL]; rfl
  have hget16 : (buildWarpNodes sampleRate bins targets).getD 16 default =
      (⟨512, 512⟩ : WarpingPoint) := by
    rw [hL, List.getD_cons_succ, List.getD_eq_getElem?_getD,
      List.getElem?_append_right (by simp)]
    simp
  have hlen : (buildWarpNodes sampleRate bins targets).length = 17 := by
    rw [hL]; simp
  refine ⟨hlen, by rw [hL]; rfl, hget16, ?_, ?_⟩
  · intro i hi
    have hstep : ∀ j : ℕ, j + 1 < 15 → q j < q (j + 1) := by
      intro j hj
      have := h2 j (by omega)
      simp only [hq] at *
      linarith
    rcases Nat.eq_zero_or_pos i with rfl | hpos
    · rw [hget0, hget 0 (by omega)]
      simp only [hq]
      linarith
    · rcases Nat.lt_or_ge i 15 with hlt | hge
      · obtain ⟨j, rfl⟩ : ∃ j, i = j + 1 := ⟨i - 1, by omega⟩
        rw [hget j (by omega), hget (j + 1) (by omega)]
        exact hstep j (by omega)
      · have h15 : i = 15 := by omega
        subst h15
        rw [show (15 : ℕ) = 14 + 1 from rfl, hget 14 (by omega),
          show (14 + 1 : ℕ) + 1 = 16 from rfl, hget16]
        show q 14 < 512
        linarith [hqle 14 (by omega)]
  · intro i hi
    rcases Nat.eq_zero_or_pos i with rfl | hpos
    · rw [hget0, hget 0 (by omega)]
      constructor
      · show (0 : ℚ) + 1 ≤ q 0
        simp only [hq]
        linarith [h1]
      · exact hqle 0 (by omega)
    · obtain ⟨j, rfl⟩ : ∃ j, i = j + 1 := ⟨i - 1, by omega⟩
      rw [hget j (by omega), hget (j + 1) (by omega)]
      exact ⟨h2 j (by omega), hqle (j + 1) (by omega)⟩

set_option maxRecDepth 40000 in
unseal Rat.add Rat.mul Rat.inv Rat.sub in
/-- Witness for the amended C2 at sample rate 44100 with the default targets. -/
theorem buildWarpNodes_strictNodes_witness :
    (buildWarpNodes 44100 (List.replicate 15 0) defaultTargetFormantsHz).length = 17 ∧
    (buildWarpNodes 44100 (List.replicate 15 0) defaultTargetFormantsHz).headI =
      (⟨0, 0⟩ : WarpingPoint) ∧
    ((buildWarpNodes 44100 (List.replicate 15 0) defaultTargetFormantsHz).getD 16 default) =
      (⟨512, 512⟩ : WarpingPoint) ∧
    (∀ i : ℕ, i + 1 < 17 →
      ((buildWarpNodes 44100 (List.replicate 15 0) defaultTargetFormantsHz).getD i
          default).dstBin <
        ((buildWarpNodes 44100 (List.replicate 15 0) defaultTargetFormantsHz).getD (i + 1)
          default).dstBin) ∧
    (∀ i : ℕ, i < 15 →
      ((buildWarpNodes 44100 (List.replicate 15 0) defaultTargetFormantsHz).getD i
          default).dstBin + 1 ≤
        ((buildWarpNodes 44100 (List.replicate 15 0) defaultTargetFormantsHz).getD (i + 1)
          default).dstBin ∧
      ((buildWarpNodes 44100 (List.replicate 15 0) defaultTargetFormantsHz).getD (i + 1)
          default).dstBin ≤ 511) :=
  buildWarpNodes_strictNodes 44100 (List.replicate 15 0) defaultTargetFormantsHz
    (by decide) (by decide) (by decide)

/-! ### process before prepare (claim C7) -/

set_option maxRecDepth 200000 in
/-- Counterexample to C7: no preparedness guard exists in
SpectralProcessor::process; from the constructor state the first output sample is
read from the zero-filled accumulator, so on the input block [1] the output is
[0], not the input.  (The frame transform F is irrelevant before the first hop;
it is instantiated with the identity here.) -/
theorem process_beforePrepare_counterexample :
    (processSamples id initialState [1]).1 ≠ [1] := by decide

theorem processOneSample_zeroAcc (F : List ℚ → List ℚ) (st : STFTState) (x : ℚ)
    (hacc : st.outputAccumulator = List.replicate fftSize 0)
    (hc : st.hopCounter + 1 < hopSize) :
    (processOneSample F st x).1 = 0 ∧
    (processOneSample F st x).2.outputAccumulator = List.replicate fftSize 0 ∧
    (processOneSample F st x).2.hopCounter = st.hopCounter + 1 := by
  unfold processOneSample
  rw [if_neg (by omega)]
  refine ⟨?_, ?_, rfl⟩
  · rw [hacc, List.getD_eq_getElem?_getD, List.getElem?_replicate]
    split <;> rfl
  · rw [hacc, List.set_replicate_self]

theorem processSamples_zeroAcc : ∀ (xs : List ℚ) (F : List ℚ → List ℚ) (st : STFTState),
    st.outputAccumulator = List.replicate fftSize 0 →
    st.hopCounter + xs.length < hopSize →
    (processSamples F st xs).1 = List.replicate xs.length 0 := by
  intro xs
  induction xs with
  | nil => intro F st _ _; rfl
  | cons x xs ih =>
    intro F st hacc hc
    obtain ⟨h1, h2, h3⟩ := processOneSample_zeroAcc F st x hacc (by simp at hc; omega)
    show (processOneSample F st x).1 :: (processSamples F (processOneSample F st x).2 xs).1 =
      List.replicate (x :: xs).length 0
    rw [h1, List.length_cons, List.replicate_succ,
      ih F (processOneSample F st x).2 h2 (by rw [h3]; simp at hc ⊢; omega)]

/-- Amended C7: process before prepare is not pass-through.  The per-sample loop
runs unguarded, and every output sample produced before the first hop completes
(the first hopSize samples from the constructor state) is 0, read from the
zero-initialized overlap-add accumulator — regardless of the input and of the
frame transform.  (At the first hop the code then runs the frame path with the
unprepared, zero-sized envelope extractor; that out-of-bounds access is outside
this model.) -/
theorem process_beforePrepare_zeros (F : List ℚ → List ℚ) (input : List ℚ)
    (h : input.length < hopSize) :
    (processSamples F initialState input).1 = List.replicate input.length 0 :=
  processSamples_zeroAcc input F initialState rfl
    (by rw [show initialState.hopCounter = 0 from rfl, Nat.zero_add]; exact h)

/-- Witness for the amended C7 on the two-sample block [1, 2]. -/
theorem process_beforePrepare_zeros_witness :
    ([(1 : ℚ), 2].length < hopSize) ∧
    (processSamples id initialState [(1 : ℚ), 2]).1 = List.replicate 2 0 :=
  ⟨by decide, process_beforePrepare_zeros id [(1 : ℚ), 2] (by decide)⟩

/-! ### Formant detection (claim C4) -/

theorem jlimitZ_of_mem {lo hi v : ℤ} (h1 : lo ≤ v) (h2 : v ≤ hi) : jlimitZ lo hi v = v := by
  unfold jlimitZ
  rw [if_neg (not_lt.mpr h1), if_neg (not_lt.mpr h2)]

theorem peakCandidates_mem (env : List ℚ) (minBin maxBin : ℤ) :
    ∀ p ∈ peakCandidates env minBin maxBin, minBin ≤ p.1 ∧ p.1 ≤ maxBin := by
  intro p hp
  unfold peakCandidates at hp
  obtain ⟨i, _, hf⟩ := List.mem_filterMap.mp hp
  by_cases hc : minBin ≤ (i : ℤ) ∧ (i : ℤ) ≤ maxBin ∧
      env.getD (i - 1) 0 < env.getD i 0 ∧ env.getD (i + 1) 0 ≤ env.getD i 0
  · rw [if_pos hc] at hf
    obtain rfl : ((i : ℤ), env.getD i 0) = p := Option.some.inj hf
    exact ⟨hc.1, hc.2.1⟩
  · rw [if_neg hc] at hf
    exact absurd hf (Option.noConfusion)

theorem greedySelect_subset (minDist : ℤ) :
    ∀ (cs : List (ℤ × ℚ)) (sel : List ℤ),
      ∀ x ∈ greedySelect minDist cs sel, x ∈ sel ∨ ∃ c ∈ cs, x = c.1 := by
  intro cs
  induction cs with
  | nil => intro sel x hx; exact Or.inl hx
  | cons c rest ih =>
    intro sel x hx
    unfold greedySelect at hx
    by_cases h1 : numFormants ≤ sel.length
    · rw [if_pos h1] at hx
      exact Or.inl hx
    · rw [if_neg h1] at hx
      by_cases h2 : ∃ chosen ∈ sel, |chosen - c.1| < minDist
      · rw [if_pos h2] at hx
        rcases ih sel x hx with h | ⟨d, hd, hxd⟩
        · exact Or.inl h
        · exact Or.inr ⟨d, List.mem_cons_of_mem _ hd, hxd⟩
      · rw [if_neg h2] at hx
        rcases ih (sel ++ [c.1]) x hx with h | ⟨d, hd, hxd⟩
        · rcases List.mem_append.mp h with h | h
          · exact Or.inl h
          · exact Or.inr ⟨c, List.mem_cons_self .., by simpa using h⟩
        · exact Or.inr ⟨d, List.mem_cons_of_mem _ hd, hxd⟩

theorem greedySelect_pairwise (minDist : ℤ) :
    ∀ (cs : List (ℤ × ℚ)) (sel : List ℤ),
      List.Pairwise (fun a b => minDist ≤ |a - b|) sel →
      List.Pairwise (fun a b => minDist ≤ |a - b|) (greedySelect minDist cs sel) := by
  intro cs
  induction cs with
  | nil => intro sel h; exact h
  | cons c rest ih =>
    intro sel hsel
    unfold greedySelect
    by_cases h1 : numFormants ≤ sel.length
    · rw [if_pos h1]; exact hsel
    · rw [if_neg h1]
      by_cases h2 : ∃ chosen ∈ sel, |chosen - c.1| < minDist
      · rw [if_pos h2]; exact ih sel hsel
      · rw [if_neg h2]
        refine ih (sel ++ [c.1]) (List.pairwise_append.mpr ⟨hsel, List.pairwise_singleton .., ?_⟩)
        intro a ha b hb
        obtain rfl : b = c.1 := List.mem_singleton.mp hb
        push_neg at h2
        exact h2 a ha

theorem formantFill_props (minBin maxBin minDist : ℤ) (sel : List ℤ)
    (hmM : minBin ≤ maxBin) (hmd : 2 ≤ minDist)
    (hgap : List.Pairwise (fun a b => a + minDist ≤ b) sel)
    (hmem : ∀ x ∈ sel, minBin ≤ x ∧ x ≤ maxBin) :
    ∀ (r i : ℕ) (lastBin : ℤ),
      minBin ≤ lastBin → lastBin ≤ maxBin →
      (∀ j (hj : j < sel.length), i ≤ j →
        lastBin + (if i = 0 then 0 else minDist / 2) ≤ sel.get ⟨j, hj⟩) →
      (formantFill minBin maxBin minDist sel i r lastBin).length = r ∧
      (∀ x ∈ formantFill minBin maxBin minDist sel i r lastBin,
        minBin ≤ x ∧ x ≤ maxBin) ∧
      List.Chain' (· ≤ ·) (formantFill minBin maxBin minDist sel i r lastBin) ∧
      (∀ y ∈ (formantFill minBin maxBin minDist sel i r lastBin).head?, lastBin ≤ y) := by
  intro r
  induction r with
  | zero =>
    intro i lastBin _ _ _
    refine ⟨rfl, ?_, ?_, ?_⟩
    · intro x hx
      simp [formantFill] at hx
    · show List.Chain' _ ([] : List ℤ)
      exact List.chain'_nil
    · intro y hy
      simp [formantFill] at hy
  | succ r ih =>
    intro i lastBin hlo hhi hinv
    by_cases hsel : i < sel.length
    · have hnext : lastBin + (if i = 0 then 0 else minDist / 2) ≤ sel.get ⟨i, hsel⟩ :=
        hinv i hsel le_rfl
      have hmax : max (lastBin + if i = 0 then 0 else minDist / 2) (sel.get ⟨i, hsel⟩) =
          sel.get ⟨i, hsel⟩ := max_eq_right hnext
      have hmemi := hmem _ (sel.get_mem i hsel)
      have hstep : ∀ j (hj : j < sel.length), i + 1 ≤ j →
          sel.get ⟨i, hsel⟩ + (if i + 1 = 0 then 0 else minDist / 2) ≤ sel.get ⟨j, hj⟩ := by
        intro j hj hij
        have := (List.pairwise_iff_get.mp hgap) ⟨i, hsel⟩ ⟨j, hj⟩ (by simpa using hij)
        have h2 : minDist / 2 ≤ minDist := by omega
        simp only [if_neg (Nat.succ_ne_zero i)]
        omega
      obtain ⟨l1, l2, l3, l4⟩ := ih (i + 1) (sel.get ⟨i, hsel⟩) hmemi.1 hmemi.2 hstep
      have hout : jlimitZ minBin maxBin (sel.get ⟨i, hsel⟩) = sel.get ⟨i, hsel⟩ :=
        jlimitZ_of_mem hmemi.1 hmemi.2
      refine ⟨?_, ?_, ?_, ?_⟩ <;>
        simp only [formantFill, dif_pos hsel, hmax, hout]
      · simpa using l1
      · intro x hx
        rcases List.mem_cons.mp hx with rfl | hx
        · exact hmemi
        · exact l2 x hx
      · exact List.chain'_cons'.mpr ⟨l4, l3⟩
      · intro y hy
        obtain rfl : sel.get ⟨i, hsel⟩ = y := by simpa using hy
        omega
    · have hlast2lo : minBin ≤ min maxBin (lastBin + minDist) := by omega
      have hlast2hi : min maxBin (lastBin + minDist) ≤ maxBin := by omega
      have hstep : ∀ j (hj : j < sel.length), i + 1 ≤ j →
          min maxBin (lastBin + minDist) + (if i + 1 = 0 then 0 else minDist / 2) ≤
            sel.get ⟨j, hj⟩ := by
        intro j hj hij
        omega
      obtain ⟨l1, l2, l3, l4⟩ := ih (i + 1) (min maxBin (lastBin + minDist)) hlast2lo hlast2hi hstep
      have hout : jlimitZ minBin maxBin (min maxBin (lastBin + minDist)) =
          min maxBin (lastBin + minDist) := jlimitZ_of_mem hlast2lo hlast2hi
      refine ⟨?_, ?_, ?_, ?_⟩ <;>
        simp only [formantFill, dif_neg hsel, hout]
      · simpa using l1
      · intro x hx
        rcases List.mem_cons.mp hx with rfl | hx
        · exact ⟨hlast2lo, hlast2hi⟩
        · exact l2 x hx
      · exact List.chain'_cons'.mpr ⟨l4, l3⟩
      · intro y hy
        obtain rfl : min maxBin (lastBin + minDist) = y := by simpa using hy
        omega

set_option maxRecDepth 100000 in
unseal Rat.add Rat.mul Rat.inv Rat.sub in
/-- Counterexample to C4: at sample rate 48000 (minBin = 3, maxBin = 192,
minDistanceBins = 2) the envelope that is zero except for a single peak at bin
192 = maxBin makes detectFormants return the bin 192 fifteen times: the padding
loop saturates at maxBin, so the output is not strictly increasing (bins 0 and 1
coincide). -/
theorem detectFormants_counterexample :
    detectFormants ((List.replicate 513 (0 : ℚ)).set 192 1) 48000 =
      List.replicate 15 (192 : ℤ) ∧
    (List.replicate 15 (192 : ℤ)).getD 0 0 = (List.replicate 15 (192 : ℤ)).getD 1 0 :=
  ⟨by decide, by decide⟩

/-- Amended C4: for every envelope and sample rate such that the scan window is
non-empty (minBin <= maxBin, true for every audio-range sample rate),
detectFormants returns exactly 15 bins, each within [minBin, maxBin], in
NONDECREASING order.  Strict increase — as claim C4 states it — fails when the
padding saturates at maxBin (see the counterexample). -/
theorem detectFormants_formants (env : List ℚ) (sampleRate : ℚ)
    (hmM : detectMinBin (sampleRate / (fftSize : ℚ)) ≤
      detectMaxBin env.length (sampleRate / (fftSize : ℚ))) :
    (detectFormants env sampleRate).length = 15 ∧
    List.Chain' (· ≤ ·) (detectFormants env sampleRate) ∧
    (∀ x ∈ detectFormants env sampleRate,
      detectMinBin (sampleRate / (fftSize : ℚ)) ≤ x ∧
      x ≤ detectMaxBin env.length (sampleRate / (fftSize : ℚ))) := by
  simp only [detectFormants]
  set hz := sampleRate / (fftSize : ℚ) with hhz
  set minBin := detectMinBin hz with hminBin
  set maxBin := detectMaxBin env.length hz with hmaxBin
  set minDist := detectMinDist hz with hminDist
  have hmin1 : (1 : ℤ) ≤ minBin := by rw [hminBin, detectMinBin]; exact le_max_left _ _
  have hmd2 : (2 : ℤ) ≤ minDist := by rw [hminDist, detectMinDist]; exact le_max_left _ _
  set cands := peakCandidates env minBin maxBin with hcands
  set sorted := List.insertionSort (fun a b : ℤ × ℚ => b.2 ≤ a.2) cands with hsort
  set selected := greedySelect minDist sorted [] with hselected
  set sel := List.insertionSort (fun a b : ℤ => a ≤ b) selected with hsel
  have hmemsel : ∀ x ∈ sel, minBin ≤ x ∧ x ≤ maxBin := by
    intro x hx
    have hx2 : x ∈ selected := ((List.perm_insertionSort _ selected).mem_iff).mp hx
    rcases greedySelect_subset minDist sorted [] x hx2 with h | ⟨c, hc, rfl⟩
    · exact absurd h (List.not_mem_nil x)
    · exact peakCandidates_mem env minBin maxBin c
        (((List.perm_insertionSort _ cands).mem_iff).mp hc)
  have hgap2 : List.Pairwise (fun a b => a + minDist ≤ b) sel := by
    have h1 : List.Pairwise (fun a b : ℤ => minDist ≤ |a - b|) selected :=
      greedySelect_pairwise minDist sorted [] List.Pairwise.nil
    have h2 : List.Pairwise (fun a b : ℤ => minDist ≤ |a - b|) sel :=
      (((List.perm_insertionSort _ selected)).pairwise_iff
        (fun h => by rwa [abs_sub_comm])).mpr h1
    have h3 : List.Sorted (· ≤ ·) sel := List.sorted_insertionSort _ selected
    rw [List.pairwise_iff_get] at h2 ⊢
    intro i j hij
    have hd := h2 i j hij
    have hle := h3.rel_get_of_lt hij
    have habs : |sel.get i - sel.get j| = sel.get j - sel.get i := by
      rw [abs_sub_comm]
      exact abs_of_nonneg (by omega)
    omega
  have hstart1 : minBin ≤ max minBin 1 := le_max_left _ _
  have hstarteq : max minBin 1 = minBin := max_eq_left hmin1
  obtain ⟨l1, l2, l3, l4⟩ := formantFill_props minBin maxBin minDist sel hmM hmd2 hgap2 hmemsel
    numFormants 0 (max minBin 1) hstart1 (by rw [hstarteq]; exact hmM)
    (by
      intro j hj _
      rw [if_pos rfl, add_zero, hstarteq]
      exact (hmemsel _ (sel.get_mem j hj)).1)
  exact ⟨l1, l3, l2⟩

set_option maxRecDepth 100000 in
unseal Rat.add Rat.mul Rat.inv Rat.sub in
/-- Witness for the amended C4 on the all-zero 513-bin envelope at 48 kHz. -/
theorem detectFormants_formants_witness :
    (detectMinBin ((48000 : ℚ) / (fftSize : ℚ)) ≤
      detectMaxBin (List.replicate 513 (0 : ℚ)).length ((48000 : ℚ) / (fftSize : ℚ))) ∧
    (detectFormants (List.replicate 513 (0 : ℚ)) 48000).length = 15 ∧
    List.Chain' (· ≤ ·) (detectFormants (List.replicate 513 (0 : ℚ)) 48000) ∧
    (∀ x ∈ detectFormants (List.replicate 513 (0 : ℚ)) 48000,
      detectMinBin ((48000 : ℚ) / (fftSize : ℚ)) ≤ x ∧
      x ≤ detectMaxBin (List.replicate 513 (0 : ℚ)).length ((48000 : ℚ) / (fftSize : ℚ))) :=
  ⟨by decide, detectFormants_formants (List.replicate 513 (0 : ℚ)) 48000 (by decide)⟩

/-! ### Warp-map construction (claim C3) -/

theorem cast_le_sub_one {i nb : ℕ} (h : i < nb) : (i : ℚ) ≤ (nb : ℚ) - 1 := by
  have h2 : (i : ℚ) + 1 ≤ (nb : ℚ) := by exact_mod_cast h
  linarith

theorem getD_eq_get (l : List WarpingPoint) (d : WarpingPoint) {i : ℕ} (h : i < l.length) :
    l.getD i d = l.get ⟨i, h⟩ := by
  rw [List.getD_eq_getElem?_getD, List.getElem?_eq_getElem h]
  rfl

theorem getLastD_mem (l : List WarpingPoint) (h : l ≠ []) : l.getLast?.getD default ∈ l := by
  rw [List.getLast?_eq_getLast l h]
  exact List.getLast_mem h

theorem sorted_head_le (l : List WarpingPoint)
    (hs : List.Sorted (fun a b => a.dstBin ≤ b.dstBin) l) :
    ∀ x ∈ l, l.headI.dstBin ≤ x.dstBin := by
  cases l with
  | nil => intro x hx; exact absurd hx (List.not_mem_nil x)
  | cons a t =>
    intro x hx
    rcases List.mem_cons.mp hx with rfl | hx
    · exact le_rfl
    · exact (List.sorted_cons.mp hs).1 x hx

theorem sorted_le_getLast (l : List WarpingPoint)
    (hs : List.Sorted (fun a b => a.dstBin ≤ b.dstBin) l) (h : l ≠ []) :
    ∀ x ∈ l, x.dstBin ≤ (l.getLast h).dstBin := by
  induction l with
  | nil => exact absurd rfl h
  | cons a t ih =>
    intro x hx
    cases t with
    | nil =>
      obtain rfl : x = a := by simpa using hx
      exact le_rfl
    | cons b t2 =>
      rw [List.getLast_cons (List.cons_ne_nil b t2)]
      rcases List.mem_cons.mp hx with rfl | hx
      · exact (List.sorted_cons.mp hs).1 _ (List.getLast_mem (List.cons_ne_nil b t2))
      · exact ih (List.sorted_cons.mp hs).2 (List.cons_ne_nil b t2) x hx

theorem get_last_eq (pts : List WarpingPoint) (hne : pts ≠ []) {j : ℕ}
    (hj : j < pts.length) (hjl : j + 1 = pts.length) :
    pts.get ⟨j, hj⟩ = pts.getLast hne := by
  have hj2 : j = pts.length - 1 := by omega
  subst hj2
  rw [List.getLast_eq_getElem, List.get_eq_getElem]

theorem advanceSeg_le (pts : List WarpingPoint) (outBin : ℚ) (hne : pts ≠ [])
    (hout : outBin ≤ (pts.getLast hne).dstBin) :
    ∀ (fuel seg : ℕ), seg + 2 ≤ pts.length → advanceSeg pts outBin fuel seg + 2 ≤ pts.length := by
  intro fuel
  induction fuel with
  | zero => intro seg h; exact h
  | succ fuel ih =>
    intro seg hseg
    unfold advanceSeg
    split
    · rename_i hcond
      rcases Nat.lt_or_ge (seg + 3) (pts.length + 1) with h3 | h3
      · exact ih (seg + 1) (by omega)
      · exfalso
        rw [getD_eq_get pts default (by omega),
          get_last_eq pts hne (by omega) (by omega)] at hcond
        exact absurd hcond.2 (not_lt.mpr hout)
    · exact hseg

theorem advanceSeg_hits (pts : List WarpingPoint) (outBin : ℚ) (hne : pts ≠ [])
    (hstop : ¬ (pts.getLast hne).dstBin < outBin)
    (hmid : ∀ (j : ℕ) (hj : j < pts.length), j + 2 ≤ pts.length →
      (pts.get ⟨j, hj⟩).dstBin < outBin) :
    ∀ (fuel seg : ℕ), seg + 2 ≤ pts.length → pts.length ≤ fuel + seg + 2 →
      advanceSeg pts outBin fuel seg + 2 = pts.length := by
  intro fuel
  induction fuel with
  | zero =>
    intro seg hseg hfuel
    show seg + 2 = pts.length
    omega
  | succ fuel ih =>
    intro seg hseg hfuel
    rcases Nat.lt_or_ge (seg + 2) pts.length with h3 | h3
    · unfold advanceSeg
      rw [if_pos ⟨by omega, by
        rw [getD_eq_get pts default (by omega)]
        exact hmid (seg + 1) (by omega) (by omega)⟩]
      exact ih (seg + 1) (by omega) (by omega)
    · have he : seg + 2 = pts.length := by omega
      unfold advanceSeg
      rw [if_neg]
      · exact he
      · rintro ⟨h1, h2⟩
        rw [getD_eq_get pts default (by omega),
          get_last_eq pts hne (by omega) (by omega)] at h2
        exact hstop h2

theorem advanceSeg_stop (pts : List WarpingPoint) (outBin : ℚ) (fuel seg : ℕ)
    (h : ¬ (pts.getD (seg + 1) default).dstBin < outBin) :
    advanceSeg pts outBin fuel seg = seg := by
  cases fuel with
  | zero => rfl
  | succ fuel =>
    unfold advanceSeg
    rw [if_neg (fun hc => h hc.2)]

theorem warpEntry_bounds (pts : List WarpingPoint) (nb : ℕ) (outBin : ℚ) (seg : ℕ)
    (hnb : 2 ≤ nb) (hseg : seg + 2 ≤ pts.length) :
    0 ≤ warpEntry pts nb outBin seg ∧ warpEntry pts nb outBin seg ≤ (nb : ℚ) - 1 := by
  have h1 : (1 : ℚ) ≤ (nb : ℚ) - 1 := by
    have h2 : (2 : ℚ) ≤ (nb : ℚ) := by exact_mod_cast hnb
    linarith
  unfold warpEntry
  rw [if_neg (by omega)]
  exact ⟨le_max_left 0 _, max_le (by linarith) (min_le_right _ _)⟩

theorem warpMapGo_length (pts : List WarpingPoint) (nb : ℕ) :
    ∀ (r i seg : ℕ), (warpMapGo pts nb i seg r).length = r := by
  intro r
  induction r with
  | zero => intro i seg; rfl
  | succ r ih => intro i seg; simp [warpMapGo, ih]

theorem warpMapGo_bounds (pts : List WarpingPoint) (nb : ℕ) (hnb : 2 ≤ nb)
    (hne : pts ≠ []) (hlast : ((nb : ℚ) - 1) ≤ (pts.getLast hne).dstBin) :
    ∀ (r i seg : ℕ), i + r = nb → seg + 2 ≤ pts.length →
      ∀ q ∈ warpMapGo pts nb i seg r, 0 ≤ q ∧ q ≤ (nb : ℚ) - 1 := by
  intro r
  induction r with
  | zero => intro i seg _ _ q hq; simp [warpMapGo] at hq
  | succ r ih =>
    intro i seg hi hseg q hq
    have houtle : (i : ℚ) ≤ (nb : ℚ) - 1 := cast_le_sub_one (by omega)
    have hseg2 := advanceSeg_le pts i hne (le_trans houtle hlast) pts.length seg hseg
    simp only [warpMapGo] at hq
    rcases List.mem_cons.mp hq with rfl | hq
    · exact warpEntry_bounds pts nb _ _ hnb hseg2
    · exact ih (i + 1) _ (by omega) hseg2 q hq

theorem get_mem_dropLast (pts : List WarpingPoint) {j : ℕ} (hj : j < pts.length)
    (h2 : j + 1 < pts.length) : pts.get ⟨j, hj⟩ ∈ pts.dropLast := by
  have hlt : j < pts.dropLast.length := by
    rw [List.length_dropLast]
    omega
  rw [List.get_eq_getElem, ← List.getElem_dropLast pts j hlt]
  exact List.getElem_mem hlt

theorem warpAnchor_facts (nb : ℕ) (points : List WarpingPoint) (hnb : 2 ≤ nb) :
    2 ≤ (warpAnchor nb points).length ∧
    ∃ p ∈ warpAnchor nb points, (nb : ℚ) - 1 ≤ p.dstBin := by
  have h1q : (1 : ℚ) ≤ (nb : ℚ) - 1 := by
    have h2 : (2 : ℚ) ≤ (nb : ℚ) := by exact_mod_cast hnb
    linarith
  simp only [warpAnchor]
  by_cases hc1 : points = [] ∨ 1/1000 < points.headI.dstBin
  · rw [if_pos hc1]
    by_cases hc2 : ((((⟨0, 0⟩ : WarpingPoint) :: points).getLast?.getD default)).dstBin <
        (nb : ℚ) - 1
    · rw [if_pos hc2]
      refine ⟨by simp only [List.length_append, List.length_cons]; omega,
        ⟨⟨(nb : ℚ) - 1, (nb : ℚ) - 1⟩, by simp, le_rfl⟩⟩
    · rw [if_neg hc2]
      rcases points with _ | ⟨p, ps⟩
      · exfalso
        rw [List.getLast?_singleton, Option.getD_some] at hc2
        exact hc2 (by show (0 : ℚ) < (nb : ℚ) - 1; linarith)
      · exact ⟨by simp, _, getLastD_mem _ (List.cons_ne_nil _ _), not_lt.mp hc2⟩
  · rw [if_neg hc1]
    push_neg at hc1
    obtain ⟨hne, hle⟩ := hc1
    by_cases hc2 : ((points.getLast?.getD default)).dstBin < (nb : ℚ) - 1
    · rw [if_pos hc2]
      have hpos : 1 ≤ points.length := List.length_pos.mpr hne
      refine ⟨by simp only [List.length_append, List.length_cons]; omega,
        ⟨⟨(nb : ℚ) - 1, (nb : ℚ) - 1⟩, by simp, le_rfl⟩⟩
    · rw [if_neg hc2]
      refine ⟨?_, _, getLastD_mem _ hne, not_lt.mp hc2⟩
      rcases points with _ | ⟨p, ps⟩
      · exact absurd rfl hne
      rcases ps with _ | ⟨p2, ps2⟩
      · exfalso
        simp only [List.headI] at hle
        rw [List.getLast?_singleton, Option.getD_some, not_lt] at hc2
        have h5 : (1 : ℚ)/1000 < 1 := by norm_num
        linarith
      · simp

theorem warpAnchor_of_inner (nb : ℕ) (points : List WarpingPoint) (hnb : 2 ≤ nb)
    (hdst : ∀ p ∈ points, 1/1000 < p.dstBin ∧ p.dstBin < (nb : ℚ) - 1 - 1/10000) :
    warpAnchor nb points =
      (⟨0, 0⟩ : WarpingPoint) :: (points ++ [⟨(nb : ℚ) - 1, (nb : ℚ) - 1⟩]) := by
  have h1q : (1 : ℚ) ≤ (nb : ℚ) - 1 := by
    have h2 : (2 : ℚ) ≤ (nb : ℚ) := by exact_mod_cast hnb
    linarith
  simp only [warpAnchor]
  have hc1 : points = [] ∨ 1/1000 < points.headI.dstBin := by
    rcases points with _ | ⟨p, ps⟩
    · exact Or.inl rfl
    · exact Or.inr (hdst p (List.mem_cons_self p ps)).1
  rw [if_pos hc1]
  have hc2 : ((((⟨0, 0⟩ : WarpingPoint) :: points).getLast?.getD default)).dstBin <
      (nb : ℚ) - 1 := by
    rcases points with _ | ⟨p, ps⟩
    · rw [List.getLast?_singleton, Option.getD_some]
      show (0 : ℚ) < (nb : ℚ) - 1
      linarith
    · rw [List.getLast?_eq_getLast _ (List.cons_ne_nil _ _), Option.getD_some,
        List.getLast_cons (List.cons_ne_nil p ps)]
      have := (hdst _ (List.getLast_mem (List.cons_ne_nil p ps))).2
      have h4 : (0 : ℚ) < 1/10000 := by norm_num
      linarith
  rw [if_pos hc2, List.cons_append]

theorem warpMapGo_headI (pts : List WarpingPoint) (nb i seg r : ℕ) (hr : 1 ≤ r) :
    (warpMapGo pts nb i seg r).headI =
      warpEntry pts nb (i : ℚ) (advanceSeg pts (i : ℚ) pts.length seg) := by
  cases r with
  | zero => omega
  | succ r => rfl

theorem warpEntry_head_eval (pts : List WarpingPoint) (nb : ℕ)
    (hnb : 2 ≤ nb) (hlen : 2 ≤ pts.length)
    (hp0 : pts.getD 0 default = ⟨0, 0⟩)
    (hp1d : 1/1000 < (pts.getD 1 default).dstBin) :
    warpEntry pts nb 0 0 = 0 := by
  have h1q : (1 : ℚ) ≤ (nb : ℚ) - 1 := by
    have h2 : (2 : ℚ) ≤ (nb : ℚ) := by exact_mod_cast hnb
    linarith
  have hp0d : (pts.getD 0 default).dstBin = 0 := by rw [hp0]
  have hp0s : (pts.getD 0 default).srcBin = 0 := by rw [hp0]
  simp only [warpEntry]
  rw [if_neg (by omega), hp0d, hp0s]
  have hrange : (1 : ℚ)/10000 < (pts.getD (0 + 1) default).dstBin - 0 := by
    rw [sub_zero]
    have : (1 : ℚ)/10000 < 1/1000 := by norm_num
    have h01 : (0 : ℕ) + 1 = 1 := rfl
    rw [h01]
    linarith
  rw [if_pos hrange]
  have hz : (0 : ℚ) + (0 - 0) / ((pts.getD (0 + 1) default).dstBin - 0) *
      ((pts.getD (0 + 1) default).srcBin - 0) = 0 := by ring
  rw [hz, min_eq_left (by linarith), max_self]

theorem warpEntry_last_eval (pts : List WarpingPoint) (nb : ℕ) (seg : ℕ)
    (hnb : 2 ≤ nb)
    (hseg : seg + 2 = pts.length)
    (hp1 : pts.getD (seg + 1) default = ⟨(nb : ℚ) - 1, (nb : ℚ) - 1⟩)
    (hd0 : (pts.getD seg default).dstBin < (nb : ℚ) - 1 - 1/10000) :
    warpEntry pts nb ((nb : ℚ) - 1) seg = (nb : ℚ) - 1 := by
  have h1q : (1 : ℚ) ≤ (nb : ℚ) - 1 := by
    have h2 : (2 : ℚ) ≤ (nb : ℚ) := by exact_mod_cast hnb
    linarith
  have hp1d : (pts.getD (seg + 1) default).dstBin = (nb : ℚ) - 1 := by rw [hp1]
  have hp1s : (pts.getD (seg + 1) default).srcBin = (nb : ℚ) - 1 := by rw [hp1]
  simp only [warpEntry]
  rw [if_neg (by omega), hp1d, hp1s]
  have hrange : (1 : ℚ)/10000 < ((nb : ℚ) - 1) - (pts.getD seg default).dstBin := by linarith
  rw [if_pos hrange,
    div_self (by linarith : ((nb : ℚ) - 1) - (pts.getD seg default).dstBin ≠ 0)]
  have heval : (pts.getD seg default).srcBin +
      1 * (((nb : ℚ) - 1) - (pts.getD seg default).srcBin) = (nb : ℚ) - 1 := by ring
  rw [heval, min_self, max_eq_right (by linarith)]

theorem warpMapGo_getLast (pts : List WarpingPoint) (nb : ℕ) (hnb : 2 ≤ nb)
    (hne : pts ≠ [])
    (hdrop : ∀ x ∈ pts.dropLast, x.dstBin < (nb : ℚ) - 1 - 1/10000)
    (hlastv : pts.getLast hne = ⟨(nb : ℚ) - 1, (nb : ℚ) - 1⟩) :
    ∀ (r i seg : ℕ), i + r = nb → 1 ≤ r → seg + 2 ≤ pts.length →
      (warpMapGo pts nb i seg r).getLast?.getD 0 = (nb : ℚ) - 1 := by
  have hstopq : ∀ i : ℕ, i + 1 ≤ nb → ¬ (pts.getLast hne).dstBin < (i : ℚ) := by
    intro i hi
    rw [hlastv]
    exact not_lt.mpr (cast_le_sub_one (by omega))
  have hmid : ∀ (j : ℕ) (hj : j < pts.length), j + 2 ≤ pts.length →
      (pts.get ⟨j, hj⟩).dstBin < (nb : ℚ) - 1 := by
    intro j hj hj2
    have := hdrop _ (get_mem_dropLast pts hj (by omega))
    have h4 : (0 : ℚ) < 1/10000 := by norm_num
    linarith
  intro r
  induction r with
  | zero => intro i seg _ h1 _; omega
  | succ r ih =>
    intro i seg hi _ hseg
    rcases Nat.eq_zero_or_pos r with rfl | hr
    · have hieq : i + 1 = nb := by omega
      have hiq : (i : ℚ) = (nb : ℚ) - 1 := by
        have : ((i : ℚ) + 1) = (nb : ℚ) := by exact_mod_cast hieq
        linarith
      have hseg2 := advanceSeg_hits pts (i : ℚ) hne
        (hstopq i (by omega))
        (fun j hj hj2 => by rw [hiq]; exact hmid j hj hj2)
        pts.length seg hseg (by omega)
      show (warpEntry pts nb (i : ℚ) (advanceSeg pts (i : ℚ) pts.length seg) ::
        warpMapGo pts nb (i + 1) (advanceSeg pts (i : ℚ) pts.length seg) 0).getLast?.getD 0 =
          (nb : ℚ) - 1
      have hentry : warpEntry pts nb (i : ℚ) (advanceSeg pts (i : ℚ) pts.length seg) =
          (nb : ℚ) - 1 := by
        rw [hiq] at hseg2 ⊢
        refine warpEntry_last_eval pts nb _ hnb hseg2 ?_ ?_
        · rw [getD_eq_get pts default (by omega), get_last_eq pts hne (by omega) (by omega)]
          exact hlastv
        · exact hdrop _ (by
            rw [getD_eq_get pts default (by omega)]
            exact get_mem_dropLast pts (by omega) (by omega))
      rw [hentry]
      rfl
    · have hseg2 := advanceSeg_le pts (i : ℚ) hne
        (by rw [hlastv]; exact cast_le_sub_one (by omega)) pts.length seg hseg
      show (warpEntry pts nb (i : ℚ) (advanceSeg pts (i : ℚ) pts.length seg) ::
        warpMapGo pts nb (i + 1) (advanceSeg pts (i : ℚ) pts.length seg) r).getLast?.getD 0 =
          (nb : ℚ) - 1
      have hlen2 : (warpMapGo pts nb (i + 1) (advanceSeg pts (i : ℚ) pts.length seg) r).length
          = r := warpMapGo_length pts nb r (i + 1) _
      rcases hx : warpMapGo pts nb (i + 1) (advanceSeg pts (i : ℚ) pts.length seg) r with
        _ | ⟨y, ys⟩
      · rw [hx] at hlen2
        simp at hlen2
        omega
      · rw [List.getLast?_cons_cons, ← hx]
        exact ih (i + 1) _ (by omega) hr hseg2

theorem headI_mem (l : List WarpingPoint) (h : l ≠ []) : l.headI ∈ l := by
  cases l with
  | nil => exact absurd rfl h
  | cons a t => exact List.mem_cons_self a t

theorem headI_cons_tail (l : List WarpingPoint) (h : l ≠ []) : l.headI :: l.tail = l := by
  cases l with
  | nil => exact absurd rfl h
  | cons a t => rfl

theorem getD_zero_eq_headI (l : List WarpingPoint) (h : l ≠ []) : l.getD 0 default = l.headI := by
  cases l with
  | nil => exact absurd rfl h
  | cons a t => rfl

theorem getD_one_eq_tail_headI (l : List WarpingPoint) (h : 2 ≤ l.length) :
    l.getD 1 default = l.tail.headI := by
  rcases l with _ | ⟨a, _ | ⟨b, t⟩⟩
  · simp at h
  · simp at h
  · rfl

set_option maxRecDepth 40000 in
unseal Rat.add Rat.mul Rat.inv Rat.sub in
/-- Counterexample to C3: for the single-node list [{5, 0}] (dstBin at the lower
edge, so neither anchor insertion fires on the front) the constructed map has
WarpMap[0] = 5, not 0, with numBins = N/2 + 1 = 513.  The claimed anchoring does
not hold for arbitrary node sets. -/
theorem calculateWarpMap_counterexample :
    (calculateWarpMap 513 [⟨5, 0⟩]).headI = 5 ∧ (5 : ℚ) ≠ 0 :=
  ⟨by decide, by decide⟩

/-- Amended C3: for every node list and numBins >= 2 (in particular
numBins = N/2 + 1), every entry of the warp map lies in [0, numBins - 1]; and
the anchoring WarpMap[0] = 0, WarpMap[numBins-1] = numBins - 1 holds provided
every node dstBin lies strictly between 0.001 and numBins - 1 - 0.0001, so that
both anchor insertions fire and the inserted anchors are the extreme nodes after
sorting.  The counterexample above shows anchoring fails for arbitrary nodes. -/
theorem calculateWarpMap_bounds_anchors (nb : ℕ) (points : List WarpingPoint) (hnb : 2 ≤ nb) :
    (∀ q ∈ calculateWarpMap nb points, 0 ≤ q ∧ q ≤ (nb : ℚ) - 1) ∧
    ((∀ p ∈ points, 1/1000 < p.dstBin ∧ p.dstBin < (nb : ℚ) - 1 - 1/10000) →
      (calculateWarpMap nb points).headI = 0 ∧
      (calculateWarpMap nb points).getLast?.getD 0 = (nb : ℚ) - 1) := by
  have h1q : (1 : ℚ) ≤ (nb : ℚ) - 1 := by
    have h2 : (2 : ℚ) ≤ (nb : ℚ) := by exact_mod_cast hnb
    linarith
  constructor
  · intro q hq
    simp only [calculateWarpMap] at hq
    obtain ⟨hlen2, pmax, hpmem, hpdst⟩ := warpAnchor_facts nb points hnb
    set S := List.insertionSort (fun a b : WarpingPoint => a.dstBin ≤ b.dstBin)
      (warpAnchor nb points) with hS
    have hperm : S.Perm (warpAnchor nb points) := List.perm_insertionSort _ _
    have hsorted : List.Sorted (fun a b : WarpingPoint => a.dstBin ≤ b.dstBin) S :=
      List.sorted_insertionSort _ _
    have hSlen : 2 ≤ S.length := by rw [hperm.length_eq]; exact hlen2
    have hSne : S ≠ [] := List.ne_nil_of_length_pos (by omega)
    have hlast : (nb : ℚ) - 1 ≤ (S.getLast hSne).dstBin :=
      le_trans hpdst (sorted_le_getLast S hsorted hSne _ (hperm.mem_iff.mpr hpmem))
    exact warpMapGo_bounds S nb hnb hSne hlast nb 0 0 (Nat.zero_add nb) (by omega) q hq
  · intro hdst
    have hA := warpAnchor_of_inner nb points hnb hdst
    simp only [calculateWarpMap, hA]
    set S := List.insertionSort (fun a b : WarpingPoint => a.dstBin ≤ b.dstBin)
      ((⟨0, 0⟩ : WarpingPoint) :: (points ++ [⟨(nb : ℚ) - 1, (nb : ℚ) - 1⟩])) with hS
    have hperm : S.Perm ((⟨0, 0⟩ : WarpingPoint) ::
        (points ++ [⟨(nb : ℚ) - 1, (nb : ℚ) - 1⟩])) := List.perm_insertionSort _ _
    have hsorted : List.Sorted (fun a b : WarpingPoint => a.dstBin ≤ b.dstBin) S :=
      List.sorted_insertionSort _ _
    have hSlen : S.length = points.length + 2 := by rw [hperm.length_eq]; simp
    have hSne : S ≠ [] := List.ne_nil_of_length_pos (by omega)
    have hmemS : ∀ x ∈ S, x = ⟨0, 0⟩ ∨ x ∈ points ∨ x = ⟨(nb : ℚ) - 1, (nb : ℚ) - 1⟩ := by
      intro x hx
      have hx2 := hperm.mem_iff.mp hx
      simp only [List.mem_cons, List.mem_append, List.mem_singleton] at hx2
      tauto
    have hzeroS : (⟨0, 0⟩ : WarpingPoint) ∈ S := hperm.mem_iff.mpr (by simp)
    have hanchS : (⟨(nb : ℚ) - 1, (nb : ℚ) - 1⟩ : WarpingPoint) ∈ S :=
      hperm.mem_iff.mpr (by simp)
    have hnp0 : (⟨0, 0⟩ : WarpingPoint) ∉ points := fun hmem => by
      have := (hdst _ hmem).1
      norm_num at this
    have hne0a : (⟨0, 0⟩ : WarpingPoint) ≠ ⟨(nb : ℚ) - 1, (nb : ℚ) - 1⟩ := by
      intro h
      have hd := congrArg WarpingPoint.dstBin h
      have hd2 : (0 : ℚ) = (nb : ℚ) - 1 := hd
      linarith
    have hnpa : (⟨(nb : ℚ) - 1, (nb : ℚ) - 1⟩ : WarpingPoint) ∉ points := fun hmem => by
      have := (hdst _ hmem).2
      have h4 : (0 : ℚ) < 1/10000 := by norm_num
      have hd2 : ((⟨(nb : ℚ) - 1, (nb : ℚ) - 1⟩ : WarpingPoint)).dstBin = (nb : ℚ) - 1 := rfl
      rw [hd2] at this
      linarith
    have hcount0 : S.count (⟨0, 0⟩ : WarpingPoint) = 1 := by
      rw [hperm.count_eq, List.count_cons, List.count_append,
        List.count_eq_zero_of_not_mem hnp0,
        List.count_eq_zero_of_not_mem (fun hm => hne0a (List.mem_singleton.mp hm))]
      simp
    have hcountA : S.count (⟨(nb : ℚ) - 1, (nb : ℚ) - 1⟩ : WarpingPoint) = 1 := by
      rw [hperm.count_eq, List.count_cons, List.count_append,
        List.count_eq_zero_of_not_mem hnpa, List.count_singleton]
      simp [hne0a]
    have hheadv : S.headI = ⟨0, 0⟩ := by
      have hh : S.headI ∈ S := headI_mem S hSne
      have hle0 : S.headI.dstBin ≤ 0 := sorted_head_le S hsorted _ hzeroS
      rcases hmemS _ hh with h | hmem | h
      · exact h
      · exfalso
        have := (hdst _ hmem).1
        have h5 : (0 : ℚ) < 1/1000 := by norm_num
        linarith
      · exfalso
        rw [h] at hle0
        have hle2 : (nb : ℚ) - 1 ≤ 0 := hle0
        linarith
    have h1d : 1/1000 < (S.getD 1 default).dstBin := by
      have hmem1 : S.getD 1 default ∈ S := by
        rw [getD_eq_get S default (show 1 < S.length by omega)]
        exact S.get_mem 1 _
      rcases hmemS _ hmem1 with h | hmem | h
      · exfalso
        have htail : S.getD 1 default = S.tail.headI := getD_one_eq_tail_headI S (by omega)
        have htne : S.tail ≠ [] := by
          intro ht
          have := congrArg List.length (headI_cons_tail S hSne)
          rw [ht] at this
          simp at this
          omega
        have hmemt : (⟨0, 0⟩ : WarpingPoint) ∈ S.tail := by
          rw [← h, htail]
          exact headI_mem S.tail htne
        have hcons := headI_cons_tail S hSne
        have hcount_tail : 0 < S.tail.count (⟨0, 0⟩ : WarpingPoint) :=
          List.count_pos_iff.mpr hmemt
        have hsplit : S.count (⟨0, 0⟩ : WarpingPoint) =
            S.tail.count (⟨0, 0⟩ : WarpingPoint) + 1 := by
          conv_lhs => rw [← hcons]
          rw [hheadv, List.count_cons]
          simp
        omega
      · exact (hdst _ hmem).1
      · rw [h]
        have : ((⟨(nb : ℚ) - 1, (nb : ℚ) - 1⟩ : WarpingPoint)).dstBin = (nb : ℚ) - 1 := rfl
        rw [this]
        have h5 : (1 : ℚ)/1000 < 1 := by norm_num
        linarith
    have hlastv : S.getLast hSne = ⟨(nb : ℚ) - 1, (nb : ℚ) - 1⟩ := by
      have hg : S.getLast hSne ∈ S := List.getLast_mem hSne
      have hge : (nb : ℚ) - 1 ≤ (S.getLast hSne).dstBin :=
        sorted_le_getLast S hsorted hSne _ hanchS
      rcases hmemS _ hg with h | hmem | h
      · exfalso
        rw [h] at hge
        have hge2 : (nb : ℚ) - 1 ≤ 0 := hge
        linarith
      · exfalso
        have := (hdst _ hmem).2
        have h4 : (0 : ℚ) < 1/10000 := by norm_num
        linarith
      · exact h
    have hdropS : ∀ x ∈ S.dropLast, x.dstBin < (nb : ℚ) - 1 - 1/10000 := by
      intro x hx
      have hxS : x ∈ S := List.dropLast_subset S hx
      rcases hmemS _ hxS with h | hmem | h
      · rw [h]
        have hz : ((⟨0, 0⟩ : WarpingPoint)).dstBin = 0 := rfl
        rw [hz]
        have h4 : (0 : ℚ) < 1/10000 := by norm_num
        have h5 : (1 : ℚ)/10000 < 1 := by norm_num
        linarith
      · exact (hdst _ hmem).2
      · exfalso
        have hsplit := List.dropLast_append_getLast hSne
        rw [← hsplit, List.count_append, hlastv, List.count_singleton_self] at hcountA
        have hpos : 0 < S.dropLast.count (⟨(nb : ℚ) - 1, (nb : ℚ) - 1⟩ : WarpingPoint) :=
          List.count_pos_iff.mpr (h ▸ hx)
        omega
    constructor
    · rw [warpMapGo_headI S nb 0 0 nb (by omega), Nat.cast_zero,
        advanceSeg_stop S 0 S.length 0
          (not_lt.mpr (le_of_lt (lt_trans (by norm_num : (0:ℚ) < 1/1000) h1d)))]
      exact warpEntry_head_eval S nb hnb (by omega)
        (by rw [getD_zero_eq_headI S hSne]; exact hheadv) h1d
    · exact warpMapGo_getLast S nb hnb hSne hdropS hlastv nb 0 0 (Nat.zero_add nb)
        (by omega) (by omega)

set_option maxRecDepth 40000 in
unseal Rat.add Rat.mul Rat.inv Rat.sub in
/-- Witness for the amended C3 at numBins = 100 with the single inner node
{50, 70}. -/
theorem calculateWarpMap_bounds_anchors_witness :
    (∀ p ∈ ([⟨50, 70⟩] : List WarpingPoint), 1/1000 < p.dstBin ∧
      p.dstBin < ((100 : ℕ) : ℚ) - 1 - 1/10000) ∧
    (∀ q ∈ calculateWarpMap 100 [⟨50, 70⟩], 0 ≤ q ∧ q ≤ ((100 : ℕ) : ℚ) - 1) ∧
    (calculateWarpMap 100 [⟨50, 70⟩]).headI = 0 ∧
    (calculateWarpMap 100 [⟨50, 70⟩]).getLast?.getD 0 = ((100 : ℕ) : ℚ) - 1 := by
  have hd : ∀ p ∈ ([⟨50, 70⟩] : List WarpingPoint), 1/1000 < p.dstBin ∧
      p.dstBin < ((100 : ℕ) : ℚ) - 1 - 1/10000 := by decide
  obtain ⟨h1, h2⟩ := calculateWarpMap_bounds_anchors 100 [⟨50, 70⟩] (by norm_num)
  exact ⟨hd, h1, h2 hd⟩

/-! ### Envelope substitution factor (claim C6) -/

theorem jlimitR_mem (lo hi v : ℝ) (h : lo ≤ hi) :
    lo ≤ jlimitR lo hi v ∧ jlimitR lo hi v ≤ hi := by
  unfold jlimitR
  split_ifs with h1 h2
  · exact ⟨le_rfl, h⟩
  · exact ⟨h, le_rfl⟩
  · exact ⟨not_lt.mp h1, not_lt.mp h2⟩

theorem one_le_maxGainLinear : (1 : ℝ) ≤ maxGainLinear := by
  have h0 : (10 : ℝ) ^ (0 : ℝ) ≤ (10 : ℝ) ^ (maxEnvelopeGainDb / 20) := by
    apply Real.rpow_le_rpow_of_exponent_le (by norm_num)
    rw [maxEnvelopeGainDb]
    norm_num
  rwa [Real.rpow_zero] at h0

theorem envelopeScale_eval_tiny : envelopeScale 0 0 = 1/100 := by
  have hG := one_le_maxGainLinear
  unfold envelopeScale
  have h9 : max (0 : ℝ) (1e-9) = 1e-9 := max_eq_right (by norm_num)
  have h7 : max (0 : ℝ) (1e-7) = 1e-7 := max_eq_right (by norm_num)
  rw [h9, h7]
  have hq : (1e-9 : ℝ) / 1e-7 = 1/100 := by norm_num
  rw [hq]
  unfold jlimitR
  rw [if_neg (by norm_num), if_neg (by intro h; nlinarith)]

theorem envelopeScaleClaim_eval_tiny : envelopeScaleClaim 0 0 = 0 := by
  have hG := one_le_maxGainLinear
  unfold envelopeScaleClaim
  have h7 : max (0 : ℝ) (1e-7) = 1e-7 := max_eq_right (by norm_num)
  rw [h7, zero_div]
  unfold jlimitR
  rw [if_neg (by norm_num), if_neg (by intro h; nlinarith)]

/-- Counterexample to C6: the code floors the numerator at 1e-9
(warpedVal = max(warpedEnvelope[i], 1e-9)), which the claimed formula omits.  At
E_warp = 0, E_orig = 0 the applied factor is 1e-9/1e-7 = 1/100, while the
claimed clamp(E_warp/max(E_orig, 1e-7), 0, G_max) is 0. -/
theorem envelopeScale_counterexample :
    envelopeScale 0 0 = 1/100 ∧ envelopeScaleClaim 0 0 = 0 ∧ (1/100 : ℝ) ≠ 0 :=
  ⟨envelopeScale_eval_tiny, envelopeScaleClaim_eval_tiny, by norm_num⟩

/-- Amended C6: in the substitution loop both the real and the imaginary part of
every bin k = 0..N/2 are multiplied by the same factor
clamp(max(E_warp[k], 1e-9) / max(E_orig[k], 1e-7), 0, G_max) with
G_max = 10^(24/20); the factor always lies in [0, G_max], and it agrees with the
formula claimed by C6 whenever E_warp[k] >= 1e-9 (the 1e-9 numerator floor is
the only difference). -/
theorem substituteEnvelope_factor (warped orig buf : ℕ → ℝ) (k : ℕ)
    (hk : k ≤ fftSize / 2) :
    substituteEnvelope warped orig buf (2 * k) =
      buf (2 * k) * envelopeScale (warped k) (orig k) ∧
    substituteEnvelope warped orig buf (2 * k + 1) =
      buf (2 * k + 1) * envelopeScale (warped k) (orig k) ∧
    0 ≤ envelopeScale (warped k) (orig k) ∧
    envelopeScale (warped k) (orig k) ≤ maxGainLinear ∧
    (1e-9 ≤ warped k →
      envelopeScale (warped k) (orig k) = envelopeScaleClaim (warped k) (orig k)) := by
  have hGpos : (0 : ℝ) ≤ maxGainLinear := le_trans (by norm_num) one_le_maxGainLinear
  have hdiv1 : 2 * k / 2 = k := by omega
  have hdiv2 : (2 * k + 1) / 2 = k := by omega
  have hk2 : k ≤ 512 := by
    have h512 : fftSize / 2 = 512 := rfl
    rw [h512] at hk
    exact hk
  refine ⟨?_, ?_, ?_, ?_, ?_⟩
  · unfold substituteEnvelope
    rw [hdiv1, if_pos (by rw [show fftSize / 2 + 1 = 513 from rfl]; omega)]
  · unfold substituteEnvelope
    rw [hdiv2, if_pos (by rw [show fftSize / 2 + 1 = 513 from rfl]; omega)]
  · exact (jlimitR_mem 0 maxGainLinear _ hGpos).1
  · exact (jlimitR_mem 0 maxGainLinear _ hGpos).2
  · intro hw
    unfold envelopeScale envelopeScaleClaim
    rw [max_eq_left hw]

/-- Witness for the amended C6 at bin 0 with unit envelopes and buffer. -/
theorem substituteEnvelope_factor_witness :
    ((0 : ℕ) ≤ fftSize / 2) ∧
    (substituteEnvelope (fun _ => 1) (fun _ => 1) (fun _ => 1) (2 * 0) =
      (fun _ => (1 : ℝ)) (2 * 0) * envelopeScale ((fun _ => (1 : ℝ)) 0) ((fun _ => (1 : ℝ)) 0) ∧
    substituteEnvelope (fun _ => 1) (fun _ => 1) (fun _ => 1) (2 * 0 + 1) =
      (fun _ => (1 : ℝ)) (2 * 0 + 1) *
        envelopeScale ((fun _ => (1 : ℝ)) 0) ((fun _ => (1 : ℝ)) 0) ∧
    0 ≤ envelopeScale ((fun _ => (1 : ℝ)) 0) ((fun _ => (1 : ℝ)) 0) ∧
    envelopeScale ((fun _ => (1 : ℝ)) 0) ((fun _ => (1 : ℝ)) 0) ≤ maxGainLinear ∧
    (1e-9 ≤ (fun _ => (1 : ℝ)) 0 →
      envelopeScale ((fun _ => (1 : ℝ)) 0) ((fun _ => (1 : ℝ)) 0) =
        envelopeScaleClaim ((fun _ => (1 : ℝ)) 0) ((fun _ => (1 : ℝ)) 0))) :=
  ⟨by decide, substituteEnvelope_factor (fun _ => 1) (fun _ => 1) (fun _ => 1) 0 (by decide)⟩

/-! ### Envelope extractor (claim C5) -/

theorem exp_ratio_ne_one (N : ℕ) (n : ℕ) (h0 : 0 < n) (hn : n < N) :
    Complex.exp (2 * Real.pi * Complex.I * n / N) ≠ 1 := by
  intro h
  rw [Complex.exp_eq_one_iff] at h
  obtain ⟨m, hm⟩ := h
  have hπ : (2 * (Real.pi : ℂ) * Complex.I) ≠ 0 := Complex.two_pi_I_ne_zero
  have hNne : (N : ℂ) ≠ 0 := Nat.cast_ne_zero.mpr (by omega)
  have hm2 : (2 * (Real.pi : ℂ) * Complex.I) * ((n : ℂ) / N) =
      (2 * (Real.pi : ℂ) * Complex.I) * m := by
    calc (2 * (Real.pi : ℂ) * Complex.I) * ((n : ℂ) / N)
        = 2 * Real.pi * Complex.I * n / N := by ring
      _ = m * (2 * Real.pi * Complex.I) := hm
      _ = (2 * (Real.pi : ℂ) * Complex.I) * m := by ring
  have hdiv : (n : ℂ) / N = m := mul_left_cancel₀ hπ hm2
  rw [div_eq_iff hNne] at hdiv
  have hint : (n : ℤ) = m * N := by exact_mod_cast hdiv
  rcases le_or_lt m 0 with hm0 | hm0
  · have h1 : (m * N : ℤ) ≤ 0 :=
      mul_nonpos_of_nonpos_of_nonneg hm0 (by positivity)
    have hn1 : (1 : ℤ) ≤ (n : ℤ) := by exact_mod_cast h0
    rw [hint] at hn1
    linarith
  · have h1 : (N : ℤ) ≤ m * N :=
      le_mul_of_one_le_left (by positivity) (by omega)
    have hn2 : (n : ℤ) < (N : ℤ) := by exact_mod_cast hn
    rw [hint] at hn2
    linarith

theorem sum_exp_dft (N : ℕ) (hN : 0 < N) (n : ℕ) (hn : n < N) :
    ∑ k ∈ Finset.range N, Complex.exp (2 * Real.pi * Complex.I * k * n / N) =
      if n = 0 then (N : ℂ) else 0 := by
  rcases Nat.eq_zero_or_pos n with rfl | hn0
  · rw [if_pos rfl]
    have hone : ∀ k ∈ Finset.range N,
        Complex.exp (2 * Real.pi * Complex.I * k * ((0 : ℕ) : ℂ) / N) = 1 := by
      intro k _
      norm_num
    rw [Finset.sum_congr rfl hone]
    simp
  · rw [if_neg (by omega)]
    have hrw : ∀ k ∈ Finset.range N,
        Complex.exp (2 * Real.pi * Complex.I * k * n / N) =
          Complex.exp (2 * Real.pi * Complex.I * n / N) ^ k := by
      intro k _
      rw [← Complex.exp_nat_mul]
      congr 1
      ring
    rw [Finset.sum_congr rfl hrw, geom_sum_eq (exp_ratio_ne_one N n hn0 hn)]
    have hζN : Complex.exp (2 * Real.pi * Complex.I * n / N) ^ N = 1 := by
      rw [← Complex.exp_nat_mul]
      have hNne : (N : ℂ) ≠ 0 := Nat.cast_ne_zero.mpr (by omega)
      have harg : (N : ℂ) * (2 * Real.pi * Complex.I * n / N) =
          (n : ℤ) * (2 * Real.pi * Complex.I) := by
        push_cast
        field_simp
        ring
      rw [harg]
      exact Complex.exp_int_mul_two_pi_mul_I n
    rw [hζN]
    simp

theorem dftInverse_const (z : ℂ) (n : ℕ) (hn : n < 1024) :
    dftInverse fftSize (fun _ => z) n = if n = 0 then z else 0 := by
  have hN : fftSize = 1024 := rfl
  have hNne : ((fftSize : ℕ) : ℂ) ≠ 0 := by
    rw [hN]
    norm_num
  simp only [dftInverse]
  rw [← Finset.mul_sum,
    sum_exp_dft fftSize (by rw [hN]; omega) n (by rw [hN]; exact hn)]
  split_ifs
  · rw [mul_comm z, ← mul_assoc, inv_mul_cancel₀ hNne, one_mul]
  · simp

theorem envelopeExtract_const (c : ℝ) (hc : 1e-9 ≤ c) (i : ℕ) :
    envelopeExtract (fun _ => c) i = c := by
  have hcpos : (0 : ℝ) < c := lt_of_lt_of_le (by norm_num) hc
  have hlog : max c (1e-9 : ℝ) = c := max_eq_left hc
  have hcep : ∀ n, n < 1024 →
      (dftInverse fftSize (fun _ => ((Real.log c : ℝ) : ℂ)) n).re =
        if n = 0 then Real.log c else 0 := by
    intro n hn
    rw [dftInverse_const _ n hn]
    split_ifs <;> simp
  simp only [envelopeExtract, hlog, ite_self]
  show Real.exp ((dftForward fftSize (fun n =>
      (((if n < cutoffBin ∨ fftSize - cutoffBin ≤ n
        then (dftInverse fftSize (fun _ => ((Real.log c : ℝ) : ℂ)) n).re
        else 0 : ℝ)) : ℂ)) i).re) = c
  have hterm : ∀ n ∈ Finset.range fftSize,
      (((if n < cutoffBin ∨ fftSize - cutoffBin ≤ n
        then (dftInverse fftSize (fun _ => ((Real.log c : ℝ) : ℂ)) n).re
        else 0 : ℝ)) : ℂ) *
        Complex.exp (-(2 * Real.pi * Complex.I * i * n / fftSize)) =
      if n = 0 then ((Real.log c : ℝ) : ℂ) else 0 := by
    intro n hn
    rw [Finset.mem_range] at hn
    have hn1024 : n < 1024 := by
      rw [show fftSize = 1024 from rfl] at hn
      exact hn
    rcases Nat.eq_zero_or_pos n with rfl | hn0
    · rw [if_pos (Or.inl (by rw [show cutoffBin = 20 from rfl]; omega)),
        hcep 0 hn1024, if_pos rfl, if_pos rfl]
      norm_num
    · by_cases hlift : n < cutoffBin ∨ fftSize - cutoffBin ≤ n
      · rw [if_pos hlift, hcep n hn1024, if_neg (show ¬n = 0 by omega),
          if_neg (show ¬n = 0 by omega)]
        norm_num
      · rw [if_neg hlift, if_neg (show ¬n = 0 by omega)]
        norm_num
  simp only [dftForward]
  rw [Finset.sum_congr rfl hterm,
    Finset.sum_ite_eq' (Finset.range fftSize) 0 (fun _ => ((Real.log c : ℝ) : ℂ)),
    if_pos (Finset.mem_range.mpr (by rw [show fftSize = 1024 from rfl]; omega)),
    Complex.ofReal_re, Real.exp_log hcpos]

/-- C5 counterexample: the envelope extractor has no 1/N normalization step and
no [-20, 20] clamp of the log envelope, so output values are not confined to
[exp(-20), exp(20)]: the constant magnitude spectrum exp(25) round-trips exactly
and every output bin equals exp(25) > exp(20). -/
theorem envelopeExtract_counterexample :
    Real.exp 20 < envelopeExtract (fun _ => Real.exp 25) 0 := by
  rw [envelopeExtract_const (Real.exp 25)
    (le_trans (by norm_num) (Real.one_le_exp (by norm_num))) 0]
  exact Real.exp_lt_exp.mpr (by norm_num)

/-- C5 (amended): the final step of the envelope extractor exponentiates the real
part of the forward-transformed liftered cepstrum directly, with no further 1/N
normalization (the only 1/N is the inverse transform's own JUCE scaling) and no
clamping of the log envelope to [-20, 20]; consequently the lifter round trip is
exact on constant magnitude spectra: for every c >= 1e-9 and every bin i, the
extracted envelope of the constant spectrum c is exactly c, unbounded rather than
confined to [exp(-20), exp(20)]. -/
theorem envelopeExtract_exactOnConst (c : ℝ) (hc : 1e-9 ≤ c) (i : ℕ) :
    envelopeExtract (fun _ => c) i = c :=
  envelopeExtract_const c hc i

theorem envelopeExtract_exactOnConst_witness :
    (1e-9 : ℝ) ≤ 1 ∧ envelopeExtract (fun _ => (1 : ℝ)) 0 = 1 :=
  ⟨by norm_num, envelopeExtract_exactOnConst 1 (by norm_num) 0⟩

end SpectralMorph
